import Mathlib

/-!
Verification of the PokeSearcher pathfinding core (src/v0/app.py and
src/v0/terminal_poke_astar.py, whose grid/placement/A* functions are
identical up to logging).  The Python functions are shallowly embedded:

* cells are pairs of integers, grids are lists of rows of tile characters;
* the process-wide `random` stream is modelled by an `RNG` record carrying
  two oracle streams (one for `random.random`, one for `random.randrange`)
  and a position; `random.seed` is modelled by a caller-supplied family
  `sF : ℤ → RNG` of freshly seeded streams;
* unbounded `while` loops take an explicit fuel argument and return
  `none` when the fuel runs out (modelling divergence or a raised
  exception), so every definition is total and executable;
* the `heapq` priority queue is modelled as a plain list together with
  `popMin`, which removes the least element in the full lexicographic
  order on `(f, g, cell)` tuples that Python uses to compare heap items.
-/

abbrev Cell := ℤ × ℤ

abbrev Grid := List (List Char)

def TILE_NORMAL : Char := '.'

def TILE_WALL : Char := '#'

def TILE_MUD : Char := '~'

/-- Number of rows, `len(grid)`. -/
def gridRows (g : Grid) : ℕ := g.length

/-- Number of columns, `len(grid[0])` (0 for an empty grid). -/
def gridCols (g : Grid) : ℕ := (g.headD []).length

/-- Tile lookup `grid[r][c]`; only used behind in-bounds checks, exactly as
in the source, so the default value is never observed on in-bounds cells. -/
def gridAt (g : Grid) (r c : ℤ) : Char := (g.getD r.toNat []).getD c.toNat TILE_NORMAL

def inBounds (g : Grid) (p : Cell) : Prop :=
  0 ≤ p.1 ∧ p.1 < (gridRows g : ℤ) ∧ 0 ≤ p.2 ∧ p.2 < (gridCols g : ℤ)

instance (g : Grid) (p : Cell) : Decidable (inBounds g p) :=
  inferInstanceAs (Decidable (0 ≤ p.1 ∧ p.1 < (gridRows g : ℤ) ∧ 0 ≤ p.2 ∧
    p.2 < (gridCols g : ℤ)))

def IsRect (g : Grid) : Prop := ∀ row ∈ g, row.length = gridCols g

instance (g : Grid) : Decidable (IsRect g) :=
  inferInstanceAs (Decidable (∀ row ∈ g, row.length = gridCols g))

/-- Manhattan distance `abs(a[0]-b[0]) + abs(a[1]-b[1])`. -/
def manhattan (a b : Cell) : ℕ := (a.1 - b.1).natAbs + (a.2 - b.2).natAbs

/-- Cost of entering a tile: `COSTS.get(tile, 1)` with `COSTS = {NORMAL: 1, MUD: 3}`. -/
def costAt (g : Grid) (p : Cell) : ℕ := if gridAt g p.1 p.2 = TILE_MUD then 3 else 1

/-- The neighbour offsets used by both the BFS and A*: `[(1,0),(-1,0),(0,1),(0,-1)]`. -/
def offsets : List (ℤ × ℤ) := [(1, 0), (-1, 0), (0, 1), (0, -1)]

/-! ## Random stream model -/

structure RNG where
  floats : ℕ → ℚ
  ints : ℕ → ℕ
  pos : ℕ

/-- One draw of `random.random()`. -/
def RNG.random (s : RNG) : ℚ × RNG := (s.floats s.pos, ⟨s.floats, s.ints, s.pos + 1⟩)

/-- One draw of `random.randrange(k)` (callers guarantee `0 < k`). -/
def RNG.randrange (s : RNG) (k : ℕ) : ℕ × RNG :=
  (s.ints s.pos % k, ⟨s.floats, s.ints, s.pos + 1⟩)

/-- The effect of the optional `random.seed(seed)` call: replace the global
stream by the freshly seeded one given by the model family `sF`. -/
def reseed (sF : ℤ → RNG) (seed : Option ℤ) (s : RNG) : RNG :=
  match seed with
  | none => s
  | some k => sF k

/-! ## Grid generation (`generate_grid`) -/

/-- The per-cell body of `generate_grid`: one uniform draw decides Wall,
otherwise a second draw decides Mud versus Normal. -/
def genCell (wp mp : ℚ) (s : RNG) : Char × RNG :=
  let (rnum, s1) := s.random
  if rnum < wp then (TILE_WALL, s1)
  else
    let (m, s2) := s1.random
    if m < mp then (TILE_MUD, s2) else (TILE_NORMAL, s2)

def stepState (wp mp : ℚ) (s : RNG) : RNG := (genCell wp mp s).2

def genRow (wp mp : ℚ) : ℕ → RNG → List Char × RNG
  | 0, s => ([], s)
  | n + 1, s =>
    let (t, s1) := genCell wp mp s
    let (ts, s2) := genRow wp mp n s1
    (t :: ts, s2)

def genRows (wp mp : ℚ) (cols : ℕ) : ℕ → RNG → List (List Char) × RNG
  | 0, s => ([], s)
  | n + 1, s =>
    let (row, s1) := genRow wp mp cols s
    let (rest, s2) := genRows wp mp cols n s1
    (row :: rest, s2)

/-- `generate_grid(rows, cols, wall_prob, mud_prob, seed)`: optionally reseed,
then fill the grid cell by cell in row-major order. -/
def generate_grid (rows cols : ℕ) (wp mp : ℚ) (seed : Option ℤ) (sF : ℤ → RNG)
    (s : RNG) : Grid × RNG :=
  genRows wp mp cols rows (reseed sF seed s)

/-! ## Entity placement (`random_empty_cell`, `ensure_reachable`,
`place_entities_on_grid`) -/

/-- `random_empty_cell(grid)`: redraw a row and a column until the cell is not
a wall.  Degenerate dimensions (where Python would raise in `randrange` or
`grid[0]`) yield `none`, as does fuel exhaustion. -/
def random_empty_cell (grid : Grid) : ℕ → RNG → Option (Cell × RNG)
  | 0, _ => none
  | fuel + 1, s =>
    let rows := gridRows grid
    let cols := gridCols grid
    if rows = 0 ∨ cols = 0 then none
    else
      let (r, s1) := s.randrange rows
      let (c, s2) := s1.randrange cols
      if gridAt grid (r : ℤ) (c : ℤ) ≠ TILE_WALL then some (((r : ℤ), (c : ℤ)), s2)
      else random_empty_cell grid fuel s2

/-- One neighbour inspection of the BFS in `ensure_reachable`; the accumulator
is the pair (queue, seen). -/
def bfsStep (grid : Grid) (cur : Cell) (acc : List Cell × List Cell) (d : ℤ × ℤ) :
    List Cell × List Cell :=
  let nr := cur.1 + d.1
  let nc := cur.2 + d.2
  if 0 ≤ nr ∧ nr < (gridRows grid : ℤ) ∧ 0 ≤ nc ∧ nc < (gridCols grid : ℤ) then
    if gridAt grid nr nc ≠ TILE_WALL ∧ (nr, nc) ∉ acc.2 then
      (acc.1 ++ [(nr, nc)], (nr, nc) :: acc.2)
    else acc
  else acc

def bfsLoop (grid : Grid) (goal : Cell) : ℕ → List Cell → List Cell → Option Bool
  | 0, _, _ => none
  | _ + 1, [], _ => some false
  | fuel + 1, cur :: rest, seen =>
    if cur = goal then some true
    else
      let acc := offsets.foldl (bfsStep grid cur) (rest, seen)
      bfsLoop grid goal fuel acc.1 acc.2

/-- `ensure_reachable(grid, start, goal)`: unweighted BFS over non-Wall cells
with 4-directional adjacency. -/
def ensure_reachable (grid : Grid) (start goal : Cell) (fuel : ℕ) : Option Bool :=
  bfsLoop grid goal fuel [start] [start]

def placeLoop (rows cols : ℕ) (wp mp : ℚ) (sF : ℤ → RNG) (max_tries : ℕ) :
    ℕ → Grid → ℕ → RNG → Option (Grid × Cell × Cell × RNG)
  | 0, _, _, _ => none
  | fuel + 1, grid, tries, s =>
    match random_empty_cell grid fuel s with
    | none => none
    | some (start, s1) =>
      match random_empty_cell grid fuel s1 with
      | none => none
      | some (goal, s2) =>
        if start = goal then
          if max_tries < tries + 1 then
            let gg := generate_grid rows cols wp mp none sF s2
            placeLoop rows cols wp mp sF max_tries fuel gg.1 0 gg.2
          else placeLoop rows cols wp mp sF max_tries fuel grid (tries + 1) s2
        else
          match ensure_reachable grid start goal fuel with
          | none => none
          | some true => some (grid, start, goal, s2)
          | some false =>
            if max_tries < tries + 1 then
              let gg := generate_grid rows cols wp mp none sF s2
              placeLoop rows cols wp mp sF max_tries fuel gg.1 0 gg.2
            else placeLoop rows cols wp mp sF max_tries fuel grid (tries + 1) s2

/-- `place_entities_on_grid(rows, cols, wall_prob, mud_prob, seed,
max_place_tries)`: generate a grid, then repeatedly sample two non-wall cells
until they are distinct and mutually reachable, regenerating the grid
(unseeded) whenever the per-grid retry counter exceeds the cap. -/
def place_entities_on_grid (rows cols : ℕ) (wp mp : ℚ) (seed : Option ℤ)
    (max_tries fuel : ℕ) (sF : ℤ → RNG) (s : RNG) :
    Option (Grid × Cell × Cell × RNG) :=
  let gg := generate_grid rows cols wp mp seed sF s
  placeLoop rows cols wp mp sF max_tries fuel gg.1 0 gg.2

/-! ## A* (`astar`) -/

/-- A heap entry `(f, g, cell)` exactly as pushed by the source. -/
abbrev Entry := ℕ × ℕ × Cell

/-- Python's lexicographic comparison of `(f, g, (r, c))` tuples, which is the
order `heapq` uses on the pushed entries. -/
def entryLE (a b : Entry) : Prop :=
  a.1 < b.1 ∨ (a.1 = b.1 ∧ (a.2.1 < b.2.1 ∨ (a.2.1 = b.2.1 ∧
    (a.2.2.1 < b.2.2.1 ∨ (a.2.2.1 = b.2.2.1 ∧ a.2.2.2 ≤ b.2.2.2)))))

instance (a b : Entry) : Decidable (entryLE a b) := by
  unfold entryLE; infer_instance

/-- Remove the least heap entry (the leftmost one among equal leasts); this is
the observable behaviour of `heapq.heappop` on a heap holding these entries. -/
def popMin : List Entry → Option (Entry × List Entry)
  | [] => none
  | e :: es =>
    match popMin es with
    | none => some (e, [])
    | some (m, rest) => if entryLE e m then some (e, es) else some (m, e :: rest)

/-- A snapshot pushed onto `steps` when `record_steps` is set. -/
structure Snapshot where
  current : Cell
  opn : List Cell
  closed : List Cell
  gsnap : Cell → Option ℕ

/-- The dictionary returned by a successful `astar` call. -/
structure AResult where
  path : List Cell
  expanded : ℕ
  steps : List Snapshot

/-- The mutable state of the A* main loop: the `g` and `parent` dicts, the
heap list, and the open/closed sets. -/
structure AState where
  g : Cell → Option ℕ
  parent : Cell → Option Cell
  open_heap : List Entry
  open_set : List Cell
  closed_set : List Cell
  steps : List Snapshot

/-- Python set insertion (`open_set.add`). -/
def sadd (x : Cell) (l : List Cell) : List Cell := if x ∈ l then l else x :: l

/-- Path reconstruction: follow `parent` back-pointers from the goal to the
start, then reverse.  `none` models a missing key or divergence. -/
def reconstruct (parent : Cell → Option Cell) (start : Cell) :
    ℕ → Cell → List Cell → Option (List Cell)
  | 0, _, _ => none
  | fuel + 1, cur, path =>
    if cur = start then some ((path ++ [start]).reverse)
    else
      match parent cur with
      | none => none
      | some p => reconstruct parent start fuel p (path ++ [cur])

/-- The improvement test `tentative_g < g.get(neighbor, float('inf'))`. -/
def improves (tentative : ℕ) (old : Option ℕ) : Bool :=
  match old with
  | none => true
  | some v => tentative < v

/-- Processing of one neighbour offset during the expansion of `current`:
bounds check, wall check, and the `tentative_g` improvement test followed by
the dict updates and the heap push. -/
def relax (grid : Grid) (goal current : Cell) (st : AState) (d : ℤ × ℤ) : AState :=
  let nr := current.1 + d.1
  let nc := current.2 + d.2
  if 0 ≤ nr ∧ nr < (gridRows grid : ℤ) ∧ 0 ≤ nc ∧ nc < (gridCols grid : ℤ) then
    if gridAt grid nr nc = TILE_WALL then st
    else
      let neighbor : Cell := (nr, nc)
      let tentative := (st.g current).getD 0 + costAt grid neighbor
      if improves tentative (st.g neighbor) then
        { st with
          g := fun x => if x = neighbor then some tentative else st.g x
          parent := fun x => if x = neighbor then some current else st.parent x
          open_heap := (tentative + manhattan neighbor goal, tentative, neighbor) ::
            st.open_heap
          open_set := sadd neighbor st.open_set }
      else st
  else st

/-- The state change of a successful pop: remove the popped entry, discard
`current` from the open set, add it to the closed set. -/
def settleState (st : AState) (current : Cell) (heap1 : List Entry) : AState :=
  { st with
    open_heap := heap1
    open_set := st.open_set.erase current
    closed_set := current :: st.closed_set }

/-- Append the expansion snapshot when `record_steps` is set. -/
def recordSnap (record_steps : Bool) (st : AState) (current : Cell) : AState :=
  if record_steps then
    { st with steps := st.steps ++ [⟨current, st.open_set, st.closed_set, st.g⟩] }
  else st

/-- The A* main loop.  The outer `Option` is the fuel/divergence layer; the
inner `Option` is the source's `None` (no path found) versus a result. -/
def astarLoop (grid : Grid) (start goal : Cell) (record_steps : Bool) :
    ℕ → AState → Option (Option AResult)
  | 0, _ => none
  | fuel + 1, st =>
    match popMin st.open_heap with
    | none => some none
    | some (e, heap1) =>
      let current := e.2.2
      if current ∈ st.closed_set then
        astarLoop grid start goal record_steps fuel { st with open_heap := heap1 }
      else
        let st2 : AState := recordSnap record_steps (settleState st current heap1) current
        if current = goal then
          match reconstruct st2.parent start ((st2.g current).getD 0 + 1) current [] with
          | none => none
          | some p => some (some ⟨p, st2.closed_set.length, st2.steps⟩)
        else
          astarLoop grid start goal record_steps fuel
            (offsets.foldl (relax grid goal current) st2)

def astarInit (grid : Grid) (start goal : Cell) : AState :=
  { g := fun x => if x = start then some 0 else none
    parent := fun _ => none
    open_heap := [(manhattan start goal, 0, start)]
    open_set := [start]
    closed_set := []
    steps := [] }

/-- `astar(grid, start, goal, record_steps)`. -/
def astar (grid : Grid) (start goal : Cell) (record_steps : Bool) (fuel : ℕ) :
    Option (Option AResult) :=
  astarLoop grid start goal record_steps fuel (astarInit grid start goal)

/-- A fuel budget sufficient for every run of the main loop (proved below). -/
def astarFuel (grid : Grid) : ℕ := 5 * (gridRows grid * gridCols grid + 1) + 2

/-- The decreasing measure of the main loop. -/
def measureA (grid : Grid) (st : AState) : ℕ :=
  st.open_heap.length + 5 * (gridRows grid * gridCols grid + 1 - st.closed_set.length)

/-- Forget the recorded trace of a state. -/
def stripSteps (st : AState) : AState := { st with steps := [] }

/-- The trace-independent part of an `astar` outcome. -/
def pathExp (r : Option (Option AResult)) : Option (Option (List Cell × ℕ)) :=
  r.map (Option.map fun a => (a.path, a.expanded))

/-! ## Specification-side notions -/

def cellFree (g : Grid) (p : Cell) : Prop :=
  inBounds g p ∧ gridAt g p.1 p.2 ≠ TILE_WALL

instance (g : Grid) (p : Cell) : Decidable (cellFree g p) :=
  inferInstanceAs (Decidable (inBounds g p ∧ gridAt g p.1 p.2 ≠ TILE_WALL))

def isWallCell (g : Grid) (p : Cell) : Prop :=
  inBounds g p ∧ gridAt g p.1 p.2 = TILE_WALL

instance (g : Grid) (p : Cell) : Decidable (isWallCell g p) :=
  inferInstanceAs (Decidable (inBounds g p ∧ gridAt g p.1 p.2 = TILE_WALL))

/-- A valid 4-directional non-Wall path: nonempty, from `s` to `t`,
consecutive cells adjacent, every cell in bounds and not a Wall. -/
def ValidPath (g : Grid) (s t : Cell) (L : List Cell) : Prop :=
  L ≠ [] ∧ L.head? = some s ∧ L.getLast? = some t ∧
    L.Chain' (fun a b => manhattan a b = 1) ∧ ∀ c ∈ L, cellFree g c

instance (g : Grid) (s t : Cell) (L : List Cell) : Decidable (ValidPath g s t L) :=
  inferInstanceAs (Decidable (L ≠ [] ∧ L.head? = some s ∧ L.getLast? = some t ∧
    L.Chain' (fun a b => manhattan a b = 1) ∧ ∀ c ∈ L, cellFree g c))

/-- Total traversal cost: the sum of the entered-tile costs, excluding the
start tile. -/
def pathCost (g : Grid) (L : List Cell) : ℕ := (L.tail.map (costAt g)).sum

def IsShortest (g : Grid) (s v : Cell) (d : ℕ) : Prop :=
  (∃ L, ValidPath g s v L ∧ pathCost g L = d) ∧
    ∀ L, ValidPath g s v L → d ≤ pathCost g L

def cellOK (g : Grid) (s : Cell) (p : Cell) : Prop := p = s ∨ cellFree g p

/-- The basic loop invariant of `astarLoop`, valid for arbitrary endpoints:
bookkeeping facts about the closed set, the heap entries, and the `g`/`parent`
dictionaries that hold at every loop head of every run. -/
structure BInv (grid : Grid) (start goal : Cell) (st : AState) : Prop where
  nodup : st.closed_set.Nodup
  closed_ok : ∀ c ∈ st.closed_set, cellOK grid start c
  heap_ok : ∀ e ∈ st.open_heap, cellOK grid start e.2.2
  g_start : st.g start = some 0
  chain : ∀ x d, x ≠ start → st.g x = some d →
    ∃ p dp, st.parent x = some p ∧ st.g p = some dp ∧ dp + costAt grid x ≤ d ∧
      manhattan p x = 1 ∧ cellFree grid x
  heap_g : ∀ e ∈ st.open_heap, ∃ dv, st.g e.2.2 = some dv ∧ dv ≤ e.2.1 ∧
    e.1 = e.2.1 + manhattan e.2.2 goal
  queue_cover : ∀ w dw, w ∉ st.closed_set → st.g w = some dw →
    ∃ e ∈ st.open_heap, e.2.2 = w ∧ e.2.1 ≤ dw
  goal_not_closed : goal ∉ st.closed_set

/-- Every closed cell carries a `g` value that is a shortest distance. -/
def SettledInv (grid : Grid) (start : Cell) (st : AState) : Prop :=
  ∀ v ∈ st.closed_set, ∃ d, st.g v = some d ∧ IsShortest grid start v d

/-- Every `g` value is the cost of an actual valid path from the start. -/
def GSoundInv (grid : Grid) (start : Cell) (st : AState) : Prop :=
  ∀ x d, st.g x = some d → ∃ L, ValidPath grid start x L ∧ pathCost grid L = d

/-- Every edge from a closed cell other than `ex` to an unsettled free cell
has been relaxed (the mid-expansion form of the frontier invariant). -/
def FrontierInv (grid : Grid) (ex : Cell) (st : AState) : Prop :=
  ∀ v ∈ st.closed_set, v ≠ ex → ∀ w, manhattan v w = 1 → cellFree grid w →
    w ∉ st.closed_set → ∃ dv dw, st.g v = some dv ∧ st.g w = some dw ∧
      dw ≤ dv + costAt grid w

/-- Every edge from a closed cell to an unsettled free cell has been relaxed. -/
def FullFrontierInv (grid : Grid) (st : AState) : Prop :=
  ∀ v ∈ st.closed_set, ∀ w, manhattan v w = 1 → cellFree grid w →
    w ∉ st.closed_set → ∃ dv dw, st.g v = some dv ∧ st.g w = some dw ∧
      dw ≤ dv + costAt grid w

/-- The optimality invariant of `astarLoop`, valid at every loop head when the
start cell is in bounds and not a Wall. -/
def OInv (grid : Grid) (start : Cell) (st : AState) : Prop :=
  SettledInv grid start st ∧ GSoundInv grid start st ∧ FullFrontierInv grid st

/-! ## Concrete inputs used by witnesses and counterexamples -/

def wFloats : ℕ → ℚ := fun _ => 1

def wInts : ℕ → ℕ := fun n => n / 2

def wRNG : RNG := ⟨wFloats, wInts, 0⟩

def wSeedF : ℤ → RNG := fun _ => wRNG

def zFloats : ℕ → ℚ := fun _ => 0

def zRNG : RNG := ⟨zFloats, wInts, 0⟩

def wGrid2 : Grid := [[TILE_NORMAL, TILE_NORMAL], [TILE_NORMAL, TILE_NORMAL]]

def wGridWall : Grid := [[TILE_WALL]]

def wGridSep : Grid := [[TILE_NORMAL, TILE_WALL, TILE_NORMAL]]

def wGrid12 : Grid := [[TILE_NORMAL, TILE_NORMAL]]

/-! ## Lemmas: heap pop order -/

theorem entryLE_refl (a : Entry) : entryLE a a := by
  unfold entryLE; omega

theorem entryLE_total (a b : Entry) : entryLE a b ∨ entryLE b a := by
  obtain ⟨f1, g1, r1, c1⟩ := a
  obtain ⟨f2, g2, r2, c2⟩ := b
  unfold entryLE
  dsimp only
  omega

theorem entryLE_trans {a b c : Entry} (hab : entryLE a b) (hbc : entryLE b c) :
    entryLE a c := by
  obtain ⟨f1, g1, r1, c1⟩ := a
  obtain ⟨f2, g2, r2, c2⟩ := b
  obtain ⟨f3, g3, r3, c3⟩ := c
  unfold entryLE at hab hbc ⊢
  dsimp only at hab hbc ⊢
  omega

theorem popMin_none_iff (h : List Entry) : popMin h = none ↔ h = [] := by
  cases h with
  | nil => simp [popMin]
  | cons e es =>
    cases hp : popMin es with
    | none => simp [popMin, hp]
    | some p => cases p with
      | mk m rest => by_cases hle : entryLE e m <;> simp [popMin, hp, hle]

theorem popMin_spec : ∀ (h : List Entry) (e : Entry) (h2 : List Entry),
    popMin h = some (e, h2) → e ∈ h ∧ h.Perm (e :: h2) ∧ ∀ x ∈ h, entryLE e x := by
  intro h
  induction h with
  | nil => intro e h2 he; simp [popMin] at he
  | cons e0 es ih =>
    intro e h2 he
    cases hp : popMin es with
    | none =>
      have hes : es = [] := (popMin_none_iff es).mp hp
      subst hes
      simp [popMin] at he
      obtain ⟨rfl, rfl⟩ := he
      refine ⟨List.mem_singleton_self _, List.Perm.refl _, ?_⟩
      intro x hx
      rw [List.mem_singleton] at hx
      subst hx
      exact entryLE_refl _
    | some p =>
      obtain ⟨m, rest⟩ := p
      obtain ⟨hmem, hperm, hmin⟩ := ih m rest hp
      by_cases hle : entryLE e0 m
      · simp [popMin, hp, hle] at he
        obtain ⟨rfl, rfl⟩ := he
        refine ⟨List.mem_cons_self _ _, List.Perm.refl _, ?_⟩
        intro x hx
        rcases List.mem_cons.mp hx with rfl | hx
        · exact entryLE_refl _
        · exact entryLE_trans hle (hmin x hx)
      · simp [popMin, hp, hle] at he
        obtain ⟨rfl, rfl⟩ := he
        refine ⟨List.mem_cons_of_mem _ hmem, ?_, ?_⟩
        · exact (hperm.cons e0).trans (List.Perm.swap m e0 rest)
        · intro x hx
          rcases List.mem_cons.mp hx with rfl | hx
          · exact (entryLE_total x m).resolve_left hle
          · exact hmin x hx

/-- Claim C7: every pop of the open structure returns an entry that minimises
the priority key `(f, g)` lexicographically over the whole heap: among entries
with the smallest `f`, one with the lowest `g` is popped first.  `popMin` is
the pop operation used for every pop of `astarLoop`, so this holds for every
pop during every solve call. -/
theorem c7_pop_tiebreak (h : List Entry) (e : Entry) (h2 : List Entry)
    (hpop : popMin h = some (e, h2)) (x : Entry) (hx : x ∈ h) :
    e.1 < x.1 ∨ (e.1 = x.1 ∧ e.2.1 ≤ x.2.1) := by
  have hmin := (popMin_spec h e h2 hpop).2.2 x hx
  unfold entryLE at hmin
  omega

/-- Witness for C7 at a concrete heap. -/
theorem c7_pop_tiebreak_witness :
    (2, 5, ((1 : ℤ), (1 : ℤ))).1 < (3, 1, ((0 : ℤ), (0 : ℤ))).1 ∨
      ((2, 5, ((1 : ℤ), (1 : ℤ))).1 = (3, 1, ((0 : ℤ), (0 : ℤ))).1 ∧
        (2, 5, ((1 : ℤ), (1 : ℤ))).2.1 ≤ (3, 1, ((0 : ℤ), (0 : ℤ))).2.1) :=
  c7_pop_tiebreak [(3, 1, ((0 : ℤ), (0 : ℤ))), (2, 5, ((1 : ℤ), (1 : ℤ)))]
    (2, 5, ((1 : ℤ), (1 : ℤ))) [(3, 1, ((0 : ℤ), (0 : ℤ)))] rfl
    (3, 1, ((0 : ℤ), (0 : ℤ))) (by decide)

/-! ## Lemmas: grid generation -/

theorem genCell_fst (wp mp : ℚ) (s : RNG) :
    (genCell wp mp s).1 =
      if s.floats s.pos < wp then TILE_WALL
      else if s.floats (s.pos + 1) < mp then TILE_MUD
      else TILE_NORMAL := by
  unfold genCell RNG.random
  dsimp only
  split_ifs <;> rfl

theorem genCell_snd (wp mp : ℚ) (s : RNG) :
    (genCell wp mp s).2.floats = s.floats ∧ (genCell wp mp s).2.ints = s.ints ∧
      (genCell wp mp s).2.pos = s.pos + (if s.floats s.pos < wp then 1 else 2) := by
  unfold genCell RNG.random
  dsimp only
  split_ifs <;> simp <;> omega

theorem genCell_mem (wp mp : ℚ) (s : RNG) :
    (genCell wp mp s).1 = TILE_NORMAL ∨ (genCell wp mp s).1 = TILE_WALL ∨
      (genCell wp mp s).1 = TILE_MUD := by
  rw [genCell_fst]
  split_ifs <;> simp

theorem genRow_fst_length (wp mp : ℚ) : ∀ (n : ℕ) (s : RNG),
    (genRow wp mp n s).1.length = n := by
  intro n
  induction n with
  | zero => intro s; rfl
  | succ n ih => intro s; simp [genRow, ih]

theorem genRow_snd (wp mp : ℚ) : ∀ (n : ℕ) (s : RNG),
    (genRow wp mp n s).2 = (stepState wp mp)^[n] s := by
  intro n
  induction n with
  | zero => intro s; rfl
  | succ n ih =>
    intro s
    simp only [genRow, ih, Function.iterate_succ_apply]
    rfl

theorem genRow_getD (wp mp : ℚ) : ∀ (n : ℕ) (c : ℕ) (s : RNG), c < n →
    (genRow wp mp n s).1.getD c TILE_NORMAL =
      (genCell wp mp ((stepState wp mp)^[c] s)).1 := by
  intro n
  induction n with
  | zero => intro c s hc; omega
  | succ n ih =>
    intro c s hc
    cases c with
    | zero => simp [genRow]
    | succ c =>
      have h1 := ih c (stepState wp mp s) (by omega)
      simp only [genRow, List.getD_cons_succ, Function.iterate_succ_apply]
      rw [← h1]
      rfl

theorem genRow_mem (wp mp : ℚ) : ∀ (n : ℕ) (s : RNG), ∀ t ∈ (genRow wp mp n s).1,
    t = TILE_NORMAL ∨ t = TILE_WALL ∨ t = TILE_MUD := by
  intro n
  induction n with
  | zero => intro s t ht; simp [genRow] at ht
  | succ n ih =>
    intro s t ht
    simp only [genRow] at ht
    rcases List.mem_cons.mp ht with rfl | ht
    · exact genCell_mem wp mp s
    · exact ih _ t ht

theorem genRows_fst_length (wp mp : ℚ) (cols : ℕ) : ∀ (n : ℕ) (s : RNG),
    (genRows wp mp cols n s).1.length = n := by
  intro n
  induction n with
  | zero => intro s; rfl
  | succ n ih => intro s; simp [genRows, ih]

theorem genRows_row_length (wp mp : ℚ) (cols : ℕ) : ∀ (n : ℕ) (s : RNG),
    ∀ row ∈ (genRows wp mp cols n s).1, row.length = cols := by
  intro n
  induction n with
  | zero => intro s row hrow; simp [genRows] at hrow
  | succ n ih =>
    intro s row hrow
    simp only [genRows] at hrow
    rcases List.mem_cons.mp hrow with rfl | hrow
    · exact genRow_fst_length wp mp cols s
    · exact ih _ row hrow

theorem genRows_mem (wp mp : ℚ) (cols : ℕ) : ∀ (n : ℕ) (s : RNG),
    ∀ row ∈ (genRows wp mp cols n s).1, ∀ t ∈ row,
      t = TILE_NORMAL ∨ t = TILE_WALL ∨ t = TILE_MUD := by
  intro n
  induction n with
  | zero => intro s row hrow; simp [genRows] at hrow
  | succ n ih =>
    intro s row hrow
    simp only [genRows] at hrow
    rcases List.mem_cons.mp hrow with rfl | hrow
    · exact genRow_mem wp mp cols s
    · exact ih _ row hrow

theorem genRows_getD (wp mp : ℚ) (cols : ℕ) : ∀ (n : ℕ) (r : ℕ) (s : RNG), r < n →
    (genRows wp mp cols n s).1.getD r [] =
      (genRow wp mp cols ((stepState wp mp)^[r * cols] s)).1 := by
  intro n
  induction n with
  | zero => intro r s hr; omega
  | succ n ih =>
    intro r s hr
    cases r with
    | zero => simp [genRows]
    | succ r =>
      have h1 := ih r (genRow wp mp cols s).2 (by omega)
      simp only [genRows, List.getD_cons_succ]
      rw [h1, genRow_snd, ← Function.iterate_add_apply]
      have h2 : r * cols + cols = (r + 1) * cols := by ring
      rw [h2]

/-- Claim C6: for positive dimensions, `generate_grid` returns a `rows`×`cols`
grid, every cell is exactly one of Normal/Wall/Mud, and each cell is
determined in row-major order by the two-sequential-draw rule (first draw
below `wall_prob` gives Wall and consumes one value; otherwise a second draw
below `mud_prob` gives Mud, else Normal, consuming two values). -/
theorem c6_generate_grid_rowmajor (rows cols : ℕ) (wp mp : ℚ) (seed : Option ℤ)
    (sF : ℤ → RNG) (s : RNG) (hrows : 0 < rows) (hcols : 0 < cols) :
    (generate_grid rows cols wp mp seed sF s).1.length = rows ∧
    (∀ row ∈ (generate_grid rows cols wp mp seed sF s).1, row.length = cols) ∧
    (∀ row ∈ (generate_grid rows cols wp mp seed sF s).1, ∀ t ∈ row,
      t = TILE_NORMAL ∨ t = TILE_WALL ∨ t = TILE_MUD) ∧
    (∀ s1 : RNG,
      (genCell wp mp s1).1 =
        (if s1.floats s1.pos < wp then TILE_WALL
         else if s1.floats (s1.pos + 1) < mp then TILE_MUD
         else TILE_NORMAL) ∧
      (genCell wp mp s1).2.floats = s1.floats ∧
      (genCell wp mp s1).2.ints = s1.ints ∧
      (genCell wp mp s1).2.pos =
        s1.pos + (if s1.floats s1.pos < wp then 1 else 2)) ∧
    (∀ r c : ℕ, r < rows → c < cols →
      ((generate_grid rows cols wp mp seed sF s).1.getD r []).getD c TILE_NORMAL =
        (genCell wp mp ((stepState wp mp)^[r * cols + c] (reseed sF seed s))).1) := by
  refine ⟨genRows_fst_length wp mp cols rows _, genRows_row_length wp mp cols rows _,
    genRows_mem wp mp cols rows _, ?_, ?_⟩
  · intro s1
    exact ⟨genCell_fst wp mp s1, genCell_snd wp mp s1⟩
  · intro r c hr hc
    unfold generate_grid
    rw [genRows_getD wp mp cols rows r _ hr, genRow_getD wp mp cols c _ hc,
      ← Function.iterate_add_apply]
    have : c + r * cols = r * cols + c := by ring
    rw [this]

/-- Witness for C6 on a concrete call. -/
theorem c6_generate_grid_rowmajor_witness :
    0 < 1 ∧ 0 < 2 ∧
      ((generate_grid 1 2 0 0 none wSeedF wRNG).1.length = 1 ∧
      (∀ row ∈ (generate_grid 1 2 0 0 none wSeedF wRNG).1, row.length = 2) ∧
      (∀ row ∈ (generate_grid 1 2 0 0 none wSeedF wRNG).1, ∀ t ∈ row,
        t = TILE_NORMAL ∨ t = TILE_WALL ∨ t = TILE_MUD) ∧
      (∀ s1 : RNG,
        (genCell 0 0 s1).1 =
          (if s1.floats s1.pos < 0 then TILE_WALL
           else if s1.floats (s1.pos + 1) < 0 then TILE_MUD
           else TILE_NORMAL) ∧
        (genCell 0 0 s1).2.floats = s1.floats ∧
        (genCell 0 0 s1).2.ints = s1.ints ∧
        (genCell 0 0 s1).2.pos =
          s1.pos + (if s1.floats s1.pos < 0 then 1 else 2)) ∧
      (∀ r c : ℕ, r < 1 → c < 2 →
        ((generate_grid 1 2 0 0 none wSeedF wRNG).1.getD r []).getD c TILE_NORMAL =
          (genCell 0 0 ((stepState 0 0)^[r * 2 + c] (reseed wSeedF none wRNG))).1)) :=
  ⟨by decide, by decide,
    c6_generate_grid_rowmajor 1 2 0 0 none wSeedF wRNG (by decide) (by decide)⟩

/-- Counterexample to claim C4: `generate_grid` called with the out-of-range
probability `wall_prob = 2` and with non-positive dimensions still builds and
returns a grid normally; no InvalidConfiguration failure exists in the code. -/
theorem c4_no_validation_counterexample :
    (generate_grid 1 1 2 0 none wSeedF zRNG).1 = [[TILE_WALL]] ∧
      (generate_grid 0 5 2 (1 / 2) none wSeedF wRNG).1 = [] :=
  ⟨rfl, rfl⟩

/-- Claim C4 (amended): grid generation performs no validation at all; for
every `rows`, `cols`, `wall_prob`, `mud_prob` and seed — including
non-positive dimensions and probabilities outside `[0,1]` — it returns
normally with a `rows`×`cols` grid instead of failing fast. -/
theorem c4_generate_grid_no_validation (rows cols : ℕ) (wp mp : ℚ)
    (seed : Option ℤ) (sF : ℤ → RNG) (s : RNG) :
    (generate_grid rows cols wp mp seed sF s).1.length = rows ∧
      ∀ row ∈ (generate_grid rows cols wp mp seed sF s).1, row.length = cols :=
  ⟨genRows_fst_length wp mp cols rows _, genRows_row_length wp mp cols rows _⟩

/-! ## Lemmas: entity placement -/

theorem random_empty_cell_spec (grid : Grid) : ∀ (fuel : ℕ) (s : RNG) (c : Cell)
    (s2 : RNG), random_empty_cell grid fuel s = some (c, s2) →
    inBounds grid c ∧ gridAt grid c.1 c.2 ≠ TILE_WALL := by
  intro fuel
  induction fuel with
  | zero => intro s c s2 h; simp [random_empty_cell] at h
  | succ fuel ih =>
    intro s c s2 h
    obtain ⟨c1, c2⟩ := c
    by_cases hdim : gridRows grid = 0 ∨ gridCols grid = 0
    · simp [random_empty_cell, hdim] at h
    · simp only [random_empty_cell, if_neg hdim, RNG.randrange] at h
      split at h
      · rename_i hfree
        simp only [Option.some.injEq, Prod.mk.injEq] at h
        obtain ⟨⟨rfl, rfl⟩, rfl⟩ := h
        push_neg at hdim
        have hr : s.ints s.pos % gridRows grid < gridRows grid :=
          Nat.mod_lt _ (Nat.pos_of_ne_zero hdim.1)
        have hc : s.ints (s.pos + 1) % gridCols grid < gridCols grid :=
          Nat.mod_lt _ (Nat.pos_of_ne_zero hdim.2)
        refine ⟨?_, hfree⟩
        unfold inBounds
        dsimp only
        omega
      · exact ih _ (c1, c2) s2 h

theorem placeLoop_spec (rows cols : ℕ) (wp mp : ℚ) (sF : ℤ → RNG) (mt : ℕ) :
    ∀ (fuel : ℕ) (grid : Grid) (tries : ℕ) (s : RNG) (g2 : Grid) (st gl : Cell)
      (rng : RNG),
      placeLoop rows cols wp mp sF mt fuel grid tries s = some (g2, st, gl, rng) →
      st ≠ gl ∧ inBounds g2 st ∧ gridAt g2 st.1 st.2 ≠ TILE_WALL ∧
        inBounds g2 gl ∧ gridAt g2 gl.1 gl.2 ≠ TILE_WALL ∧
        ∃ bf, ensure_reachable g2 st gl bf = some true := by
  intro fuel
  induction fuel with
  | zero => intro grid tries s g2 st gl rng h; simp [placeLoop] at h
  | succ fuel ih =>
    intro grid tries s g2 st gl rng h
    simp only [placeLoop] at h
    cases h1 : random_empty_cell grid fuel s with
    | none => rw [h1] at h; simp at h
    | some p1 =>
      obtain ⟨start, s1⟩ := p1
      rw [h1] at h
      dsimp only at h
      cases h2 : random_empty_cell grid fuel s1 with
      | none => rw [h2] at h; simp at h
      | some p2 =>
        obtain ⟨goal, s2⟩ := p2
        rw [h2] at h
        dsimp only at h
        by_cases heq : start = goal
        · rw [if_pos heq] at h
          split at h
          · exact ih _ _ _ g2 st gl rng h
          · exact ih _ _ _ g2 st gl rng h
        · rw [if_neg heq] at h
          cases h3 : ensure_reachable grid start goal fuel with
          | none => rw [h3] at h; simp at h
          | some b =>
            rw [h3] at h
            cases b with
            | true =>
              dsimp only at h
              simp only [Option.some.injEq, Prod.mk.injEq] at h
              obtain ⟨rfl, rfl, rfl, rfl⟩ := h
              obtain ⟨hin1, hw1⟩ := random_empty_cell_spec grid fuel s start s1 h1
              obtain ⟨hin2, hw2⟩ := random_empty_cell_spec grid fuel s1 goal s2 h2
              exact ⟨heq, hin1, hw1, hin2, hw2, fuel, h3⟩
            | false =>
              dsimp only at h
              split at h
              · exact ih _ _ _ g2 st gl rng h
              · exact ih _ _ _ g2 st gl rng h

/-- Claim C2: whenever `place_entities_on_grid` returns, the returned triple
satisfies: start and goal are distinct, both are in-bounds non-Wall cells of
the returned grid, and the unweighted 4-directional BFS over non-Wall cells
(`ensure_reachable`, the code's own connectivity check) reaches the goal from
the start on that grid. -/
theorem c2_place_entities_reachable (rows cols : ℕ) (wp mp : ℚ) (seed : Option ℤ)
    (mt fuel : ℕ) (sF : ℤ → RNG) (s : RNG) (g2 : Grid) (st gl : Cell) (rng : RNG)
    (h : place_entities_on_grid rows cols wp mp seed mt fuel sF s =
      some (g2, st, gl, rng)) :
    st ≠ gl ∧ inBounds g2 st ∧ gridAt g2 st.1 st.2 ≠ TILE_WALL ∧
      inBounds g2 gl ∧ gridAt g2 gl.1 gl.2 ≠ TILE_WALL ∧
      ∃ bf, ensure_reachable g2 st gl bf = some true :=
  placeLoop_spec rows cols wp mp sF mt fuel _ 0 _ g2 st gl rng h

/-- Witness for C2 on a concrete terminating run. -/
theorem c2_place_entities_reachable_witness :
    ((0 : ℤ), (0 : ℤ)) ≠ ((0 : ℤ), (1 : ℤ)) ∧ inBounds wGrid12 (0, 0) ∧
      gridAt wGrid12 0 0 ≠ TILE_WALL ∧ inBounds wGrid12 (0, 1) ∧
      gridAt wGrid12 0 1 ≠ TILE_WALL ∧
      ∃ bf, ensure_reachable wGrid12 (0, 0) (0, 1) bf = some true :=
  c2_place_entities_reachable 1 2 0 0 none 300 20 wSeedF wRNG wGrid12 (0, 0) (0, 1)
    ⟨wFloats, wInts, 8⟩ (by rfl)

/-! ## Lemmas: the recorded trace does not influence the search (C9) -/

theorem recordSnap_g (b : Bool) (st : AState) (c : Cell) :
    (recordSnap b st c).g = st.g := by cases b <;> rfl

theorem recordSnap_parent (b : Bool) (st : AState) (c : Cell) :
    (recordSnap b st c).parent = st.parent := by cases b <;> rfl

theorem recordSnap_open_heap (b : Bool) (st : AState) (c : Cell) :
    (recordSnap b st c).open_heap = st.open_heap := by cases b <;> rfl

theorem recordSnap_open_set (b : Bool) (st : AState) (c : Cell) :
    (recordSnap b st c).open_set = st.open_set := by cases b <;> rfl

theorem recordSnap_closed (b : Bool) (st : AState) (c : Cell) :
    (recordSnap b st c).closed_set = st.closed_set := by cases b <;> rfl

theorem relax_closed (grid : Grid) (goal cur : Cell) (st : AState) (d : ℤ × ℤ) :
    (relax grid goal cur st d).closed_set = st.closed_set := by
  unfold relax
  dsimp only
  split_ifs <;> rfl

theorem foldl_relax_closed (grid : Grid) (goal cur : Cell) :
    ∀ (l : List (ℤ × ℤ)) (st : AState),
      (l.foldl (relax grid goal cur) st).closed_set = st.closed_set := by
  intro l
  induction l with
  | nil => intro st; rfl
  | cons d l ihl => intro st; rw [List.foldl_cons, ihl, relax_closed]

theorem relax_eqv (grid : Grid) (goal cur : Cell) (d : ℤ × ℤ) (st1 st2 : AState)
    (hg : st1.g = st2.g) (hp : st1.parent = st2.parent)
    (hh : st1.open_heap = st2.open_heap) (ho : st1.open_set = st2.open_set) :
    (relax grid goal cur st1 d).g = (relax grid goal cur st2 d).g ∧
      (relax grid goal cur st1 d).parent = (relax grid goal cur st2 d).parent ∧
      (relax grid goal cur st1 d).open_heap = (relax grid goal cur st2 d).open_heap ∧
      (relax grid goal cur st1 d).open_set = (relax grid goal cur st2 d).open_set := by
  obtain ⟨g1, p1, h1, o1, c1, s1⟩ := st1
  obtain ⟨g2, p2, h2, o2, c2, s2⟩ := st2
  dsimp only at hg hp hh ho
  subst hg
  subst hp
  subst hh
  subst ho
  unfold relax
  dsimp only
  split_ifs <;> exact ⟨rfl, rfl, rfl, rfl⟩

theorem foldl_relax_eqv (grid : Grid) (goal cur : Cell) :
    ∀ (l : List (ℤ × ℤ)) (st1 st2 : AState), st1.g = st2.g →
      st1.parent = st2.parent → st1.open_heap = st2.open_heap →
      st1.open_set = st2.open_set →
      (l.foldl (relax grid goal cur) st1).g = (l.foldl (relax grid goal cur) st2).g ∧
        (l.foldl (relax grid goal cur) st1).parent =
          (l.foldl (relax grid goal cur) st2).parent ∧
        (l.foldl (relax grid goal cur) st1).open_heap =
          (l.foldl (relax grid goal cur) st2).open_heap ∧
        (l.foldl (relax grid goal cur) st1).open_set =
          (l.foldl (relax grid goal cur) st2).open_set := by
  intro l
  induction l with
  | nil => intro st1 st2 hg hp hh ho; exact ⟨hg, hp, hh, ho⟩
  | cons d l ihl =>
    intro st1 st2 hg hp hh ho
    obtain ⟨a1, a2, a3, a4⟩ := relax_eqv grid goal cur d st1 st2 hg hp hh ho
    exact ihl _ _ a1 a2 a3 a4

theorem settleState_g (st : AState) (c : Cell) (h : List Entry) :
    (settleState st c h).g = st.g := rfl

theorem settleState_parent (st : AState) (c : Cell) (h : List Entry) :
    (settleState st c h).parent = st.parent := rfl

theorem settleState_open_heap (st : AState) (c : Cell) (h : List Entry) :
    (settleState st c h).open_heap = h := rfl

theorem settleState_open_set (st : AState) (c : Cell) (h : List Entry) :
    (settleState st c h).open_set = st.open_set.erase c := rfl

theorem settleState_closed (st : AState) (c : Cell) (h : List Entry) :
    (settleState st c h).closed_set = c :: st.closed_set := rfl

theorem astarLoop_pathExp (grid : Grid) (start goal : Cell) (b1 b2 : Bool) :
    ∀ (fuel : ℕ) (st1 st2 : AState), st1.g = st2.g → st1.parent = st2.parent →
      st1.open_heap = st2.open_heap → st1.open_set = st2.open_set →
      st1.closed_set = st2.closed_set →
      pathExp (astarLoop grid start goal b1 fuel st1) =
        pathExp (astarLoop grid start goal b2 fuel st2) := by
  intro fuel
  induction fuel with
  | zero => intro st1 st2 _ _ _ _ _; rfl
  | succ fuel ih =>
    intro st1 st2 hg hp hh ho hc
    obtain ⟨g1, p1, h1, o1, c1, s1⟩ := st1
    obtain ⟨g2, p2, h2, o2, c2, s2⟩ := st2
    dsimp only at hg hp hh ho hc
    subst hg
    subst hp
    subst hh
    subst ho
    subst hc
    simp only [astarLoop]
    cases hpop : popMin h1 with
    | none => rfl
    | some pr =>
      obtain ⟨e, heap1⟩ := pr
      dsimp only
      by_cases hmem : e.2.2 ∈ c1
      · simp only [if_pos hmem]
        exact ih _ _ rfl rfl rfl rfl rfl
      · simp only [if_neg hmem]
        by_cases hgoal : e.2.2 = goal
        · simp only [if_pos hgoal]
          simp only [recordSnap_parent, recordSnap_g, recordSnap_closed,
            settleState_parent, settleState_g, settleState_closed]
          cases reconstruct p1 start ((g1 e.2.2).getD 0 + 1) e.2.2 [] with
          | none => rfl
          | some p => rfl
        · simp only [if_neg hgoal]
          obtain ⟨f1, f2, f3, f4⟩ := foldl_relax_eqv grid goal e.2.2 offsets
            (recordSnap b1 (settleState ⟨g1, p1, h1, o1, c1, s1⟩ e.2.2 heap1) e.2.2)
            (recordSnap b2 (settleState ⟨g1, p1, h1, o1, c1, s2⟩ e.2.2 heap1) e.2.2)
            (by simp only [recordSnap_g, settleState_g])
            (by simp only [recordSnap_parent, settleState_parent])
            (by simp only [recordSnap_open_heap, settleState_open_heap])
            (by simp only [recordSnap_open_set, settleState_open_set])
          refine ih _ _ f1 f2 f3 f4 ?_
          simp only [foldl_relax_closed, recordSnap_closed, settleState_closed]

/-- Claim C9: the `record_steps` flag influences only the returned trace; for
every grid, endpoints and fuel the two calls return the same path and the
same expanded-node count (and agree on not-found and divergence outcomes). -/
theorem c9_record_steps_no_influence (grid : Grid) (start goal : Cell) (fuel : ℕ) :
    pathExp (astar grid start goal true fuel) =
      pathExp (astar grid start goal false fuel) :=
  astarLoop_pathExp grid start goal true false fuel _ _ rfl rfl rfl rfl rfl

/-! ## Lemmas: geometry and paths -/

theorem costAt_pos (g : Grid) (p : Cell) : 1 ≤ costAt g p := by
  unfold costAt
  split <;> omega

theorem manhattan_self (a : Cell) : manhattan a a = 0 := by
  unfold manhattan; omega

theorem manhattan_triangle (a b c : Cell) :
    manhattan a c ≤ manhattan a b + manhattan b c := by
  unfold manhattan
  omega

theorem manhattan_ne_zero {a b : Cell} (h : manhattan a b = 1) : a ≠ b := by
  intro he
  subst he
  rw [manhattan_self] at h
  omega

theorem offsets_unit {d : ℤ × ℤ} (hd : d ∈ offsets) :
    d.1.natAbs + d.2.natAbs = 1 := by
  simp only [offsets, List.mem_cons, List.not_mem_nil, or_false] at hd
  rcases hd with rfl | rfl | rfl | rfl <;> decide

theorem manhattan_offset (cur : Cell) {d : ℤ × ℤ} (hd : d.1.natAbs + d.2.natAbs = 1) :
    manhattan cur (cur.1 + d.1, cur.2 + d.2) = 1 := by
  unfold manhattan
  dsimp only
  omega

theorem adj_offset {v w : Cell} (h : manhattan v w = 1) :
    ∃ d ∈ offsets, w = (v.1 + d.1, v.2 + d.2) := by
  obtain ⟨v1, v2⟩ := v
  obtain ⟨w1, w2⟩ := w
  unfold manhattan at h
  dsimp only at h ⊢
  have h1 : (w1 = v1 + 1 ∧ w2 = v2) ∨ (w1 = v1 - 1 ∧ w2 = v2) ∨
      (w2 = v2 + 1 ∧ w1 = v1) ∨ (w2 = v2 - 1 ∧ w1 = v1) := by omega
  rcases h1 with ⟨h1, h2⟩ | ⟨h1, h2⟩ | ⟨h1, h2⟩ | ⟨h1, h2⟩
  · exact ⟨(1, 0), by simp [offsets], by simp only [Prod.mk.injEq]; omega⟩
  · exact ⟨(-1, 0), by simp [offsets], by simp only [Prod.mk.injEq]; omega⟩
  · exact ⟨(0, 1), by simp [offsets], by simp only [Prod.mk.injEq]; omega⟩
  · exact ⟨(0, -1), by simp [offsets], by simp only [Prod.mk.injEq]; omega⟩

theorem validPath_single (g : Grid) (s : Cell) (hs : cellFree g s) :
    ValidPath g s s [s] := by
  refine ⟨by simp, rfl, rfl, List.chain'_singleton s, ?_⟩
  intro c hc
  rw [List.mem_singleton] at hc
  subst hc
  exact hs

theorem pathCost_concat (g : Grid) (L : List Cell) (w : Cell) (hL : L ≠ []) :
    pathCost g (L ++ [w]) = pathCost g L + costAt g w := by
  obtain ⟨a, t, rfl⟩ := List.exists_cons_of_ne_nil hL
  unfold pathCost
  simp

theorem validPath_concat (g : Grid) (s v w : Cell) (L : List Cell)
    (hL : ValidPath g s v L) (hadj : manhattan v w = 1) (hw : cellFree g w) :
    ValidPath g s w (L ++ [w]) := by
  obtain ⟨hne, hhead, hlast, hchain, hmem⟩ := hL
  refine ⟨by simp, ?_, by simp [List.getLast?_concat], ?_, ?_⟩
  · obtain ⟨a, t, rfl⟩ := List.exists_cons_of_ne_nil hne
    simpa using hhead
  · rw [List.chain'_append]
    refine ⟨hchain, List.chain'_singleton w, ?_⟩
    intro x hx y hy
    rw [hlast] at hx
    simp only [List.head?_cons, Option.mem_def, Option.some.injEq] at hx hy
    subst hx
    subst hy
    exact hadj
  · intro c hc
    rcases List.mem_append.mp hc with hc | hc
    · exact hmem c hc
    · rw [List.mem_singleton] at hc
      subst hc
      exact hw

theorem validPath_cons_elim (g : Grid) (y v a : Cell) (b : Cell) (q : List Cell)
    (h : ValidPath g y v (a :: b :: q)) :
    a = y ∧ manhattan y b = 1 ∧ ValidPath g b v (b :: q) := by
  obtain ⟨_, hhead, hlast, hchain, hmem⟩ := h
  simp only [List.head?_cons, Option.some.injEq] at hhead
  subst hhead
  have hchain2 := List.chain'_cons.mp hchain
  refine ⟨rfl, hchain2.1, by simp, rfl, ?_, hchain2.2, ?_⟩
  · simpa using hlast
  · intro c hc
    exact hmem c (List.mem_cons_of_mem _ hc)

theorem validPath_single_elim (g : Grid) (y v a : Cell)
    (h : ValidPath g y v [a]) : a = y ∧ y = v := by
  obtain ⟨_, hhead, hlast, _, _⟩ := h
  simp only [List.head?_cons, Option.some.injEq] at hhead
  simp only [List.getLast?_singleton, Option.some.injEq] at hlast
  subst hhead
  exact ⟨rfl, hlast⟩

theorem pathCost_cons_cons (g : Grid) (a b : Cell) (q : List Cell) :
    pathCost g (a :: b :: q) = costAt g b + pathCost g (b :: q) := by
  unfold pathCost
  simp

/-- Heuristic consistency along a valid path: the Manhattan heuristic at the
head is at most the path cost plus the heuristic at the end. -/
theorem manhattan_consistency (g : Grid) (goal : Cell) : ∀ (q : List Cell)
    (y v : Cell), ValidPath g y v q →
    manhattan y goal ≤ pathCost g q + manhattan v goal := by
  intro q
  induction q with
  | nil => intro y v hv; exact absurd rfl hv.1
  | cons a q ihq =>
    intro y v hv
    cases q with
    | nil =>
      obtain ⟨rfl, rfl⟩ := validPath_single_elim g y v a hv
      simp [pathCost]
    | cons b q2 =>
      obtain ⟨rfl, hadj, hrest⟩ := validPath_cons_elim g y v a b q2 hv
      have h1 := ihq b v hrest
      have h3 : manhattan a goal ≤ manhattan a b + manhattan b goal :=
        manhattan_triangle a b goal
      have h4 : 1 ≤ costAt g b := costAt_pos g b
      rw [pathCost_cons_cons]
      omega

/-! ## Lemmas: path reconstruction from the parent chain -/

theorem reconstruct_of_chain (grid : Grid) (start : Cell) (pa : Cell → Option Cell)
    (gd : Cell → Option ℕ)
    (hch : ∀ x d, x ≠ start → gd x = some d →
      ∃ p dp, pa x = some p ∧ gd p = some dp ∧ dp + costAt grid x ≤ d ∧
        manhattan p x = 1 ∧ cellFree grid x) :
    ∀ d x, gd x = some d →
      ∃ L, (∀ fuel, d + 1 ≤ fuel → ∀ acc,
          reconstruct pa start fuel x acc = some (L ++ acc.reverse)) ∧
        L ≠ [] ∧ L.head? = some start ∧ L.getLast? = some x ∧
        L.Chain' (fun a b => manhattan a b = 1) ∧
        (∀ c ∈ L.tail, cellFree grid c) ∧ pathCost grid L ≤ d := by
  intro d
  induction d using Nat.strong_induction_on with
  | _ d ih =>
    intro x hx
    by_cases hxs : x = start
    · subst hxs
      refine ⟨[x], ?_, by simp, rfl, rfl, List.chain'_singleton x, by simp, ?_⟩
      · intro fuel hf acc
        obtain ⟨f, rfl⟩ : ∃ f, fuel = f + 1 := ⟨fuel - 1, by omega⟩
        simp [reconstruct]
      · simp [pathCost]
    · obtain ⟨p, dp, hpa, hgp, hsum, hman, hfree⟩ := hch x d hxs hx
      have hdp : dp < d := by have := costAt_pos grid x; omega
      obtain ⟨L, hrec, hne, hhead, hlast, hchain, htail, hcost⟩ := ih dp hdp p hgp
      refine ⟨L ++ [x], ?_, by simp, ?_, by simp [List.getLast?_concat], ?_, ?_, ?_⟩
      · intro fuel hf acc
        obtain ⟨f, rfl⟩ : ∃ f, fuel = f + 1 := ⟨fuel - 1, by omega⟩
        simp only [reconstruct, if_neg hxs, hpa]
        rw [hrec f (by omega) (acc ++ [x])]
        simp
      · obtain ⟨a, t, rfl⟩ := List.exists_cons_of_ne_nil hne
        simpa using hhead
      · rw [List.chain'_append]
        refine ⟨hchain, List.chain'_singleton x, ?_⟩
        intro u hu y hy
        rw [hlast] at hu
        simp only [List.head?_cons, Option.mem_def, Option.some.injEq] at hu hy
        subst hu
        subst hy
        exact hman
      · obtain ⟨a, t, rfl⟩ := List.exists_cons_of_ne_nil hne
        intro c hc
        simp only [List.cons_append, List.tail_cons] at hc
        rcases List.mem_append.mp hc with hc | hc
        · exact htail c hc
        · rw [List.mem_singleton] at hc
          subst hc
          exact hfree
      · rw [pathCost_concat grid L x hne]
        omega

/-! ## Lemmas: single-offset relaxation -/

theorem relax_char (grid : Grid) (goal cur : Cell) (st : AState) (d : ℤ × ℤ) :
    (¬ cellFree grid (cur.1 + d.1, cur.2 + d.2) ∧ relax grid goal cur st d = st) ∨
    (cellFree grid (cur.1 + d.1, cur.2 + d.2) ∧
      improves ((st.g cur).getD 0 + costAt grid (cur.1 + d.1, cur.2 + d.2))
        (st.g (cur.1 + d.1, cur.2 + d.2)) = false ∧ relax grid goal cur st d = st) ∨
    (cellFree grid (cur.1 + d.1, cur.2 + d.2) ∧
      improves ((st.g cur).getD 0 + costAt grid (cur.1 + d.1, cur.2 + d.2))
        (st.g (cur.1 + d.1, cur.2 + d.2)) = true ∧
      relax grid goal cur st d =
        { st with
          g := fun x => if x = (cur.1 + d.1, cur.2 + d.2) then
              some ((st.g cur).getD 0 + costAt grid (cur.1 + d.1, cur.2 + d.2))
            else st.g x
          parent := fun x => if x = (cur.1 + d.1, cur.2 + d.2) then some cur
            else st.parent x
          open_heap := ((st.g cur).getD 0 + costAt grid (cur.1 + d.1, cur.2 + d.2) +
              manhattan (cur.1 + d.1, cur.2 + d.2) goal,
            (st.g cur).getD 0 + costAt grid (cur.1 + d.1, cur.2 + d.2),
            (cur.1 + d.1, cur.2 + d.2)) :: st.open_heap
          open_set := sadd (cur.1 + d.1, cur.2 + d.2) st.open_set }) := by
  unfold relax
  dsimp only
  by_cases h1 : 0 ≤ cur.1 + d.1 ∧ cur.1 + d.1 < (gridRows grid : ℤ) ∧
      0 ≤ cur.2 + d.2 ∧ cur.2 + d.2 < (gridCols grid : ℤ)
  · rw [if_pos h1]
    by_cases h2 : gridAt grid (cur.1 + d.1) (cur.2 + d.2) = TILE_WALL
    · rw [if_pos h2]
      exact Or.inl ⟨fun hcf => hcf.2 h2, rfl⟩
    · rw [if_neg h2]
      cases h3 : improves ((st.g cur).getD 0 +
          costAt grid (cur.1 + d.1, cur.2 + d.2))
          (st.g (cur.1 + d.1, cur.2 + d.2)) with
      | false => exact Or.inr (Or.inl ⟨⟨h1, h2⟩, rfl, by rw [if_neg (by simp)]⟩)
      | true => exact Or.inr (Or.inr ⟨⟨h1, h2⟩, rfl, by rw [if_pos rfl]⟩)
  · rw [if_neg h1]
    exact Or.inl ⟨fun hcf => h1 hcf.1, rfl⟩

theorem improves_false {t : ℕ} {o : Option ℕ} (h : improves t o = false) :
    ∃ v, o = some v ∧ v ≤ t := by
  cases o with
  | none => simp [improves] at h
  | some v =>
    refine ⟨v, rfl, ?_⟩
    simp [improves] at h
    omega

theorem improves_some {t v : ℕ} (h : improves t (some v) = true) : t < v := by
  simpa [improves] using h

theorem relax_BInv (grid : Grid) (start goal cur : Cell) (st : AState) (d : ℤ × ℤ)
    (hB : BInv grid start goal st) (dc : ℕ) (hgc : st.g cur = some dc)
    (hd : d.1.natAbs + d.2.natAbs = 1) :
    BInv grid start goal (relax grid goal cur st d) ∧
      (relax grid goal cur st d).g cur = some dc ∧
      (∀ x v, st.g x = some v →
        ∃ v2, (relax grid goal cur st d).g x = some v2 ∧ v2 ≤ v) ∧
      (relax grid goal cur st d).open_heap.length ≤ st.open_heap.length + 1 ∧
      (∀ e ∈ st.open_heap, e ∈ (relax grid goal cur st d).open_heap) ∧
      (cellFree grid (cur.1 + d.1, cur.2 + d.2) →
        ∃ dw, (relax grid goal cur st d).g (cur.1 + d.1, cur.2 + d.2) = some dw ∧
          dw ≤ dc + costAt grid (cur.1 + d.1, cur.2 + d.2)) := by
  have htent : (st.g cur).getD 0 = dc := by rw [hgc]; rfl
  have hadj : manhattan cur (cur.1 + d.1, cur.2 + d.2) = 1 := manhattan_offset cur hd
  have hwne : (cur.1 + d.1, cur.2 + d.2) ≠ cur := (manhattan_ne_zero hadj).symm
  rcases relax_char grid goal cur st d with ⟨hncf, heq⟩ | ⟨hcf, himp, heq⟩ |
    ⟨hcf, himp, heq⟩
  · rw [heq]
    exact ⟨hB, hgc, fun x v h => ⟨v, h, le_rfl⟩, by omega, fun e he => he,
      fun hcf => absurd hcf hncf⟩
  · rw [heq]
    refine ⟨hB, hgc, fun x v h => ⟨v, h, le_rfl⟩, by omega, fun e he => he, ?_⟩
    intro _
    obtain ⟨old, hold, hle⟩ := improves_false himp
    rw [htent] at hle
    exact ⟨old, hold, by omega⟩
  · rw [htent] at himp heq
    have hwstart : (cur.1 + d.1, cur.2 + d.2) ≠ start := by
      intro hws
      rw [hws, hB.g_start] at himp
      have := improves_some himp
      omega
    rw [heq]
    refine ⟨?_, ?_, ?_, ?_, ?_, ?_⟩
    · constructor <;> dsimp only
      · exact hB.nodup
      · exact hB.closed_ok
      · intro e he
        rcases List.mem_cons.mp he with rfl | he
        · exact Or.inr hcf
        · exact hB.heap_ok e he
      · rw [if_neg (fun h => hwstart h.symm)]
        exact hB.g_start
      · intro x dx hxs hgx
        by_cases hxw : x = (cur.1 + d.1, cur.2 + d.2)
        · subst hxw
          rw [if_pos rfl] at hgx
          injection hgx with hdx
          refine ⟨cur, dc, ?_, ?_, ?_, hadj, hcf⟩
          · rw [if_pos rfl]
          · rw [if_neg (fun h => hwne h.symm)]
            exact hgc
          · omega
        · rw [if_neg hxw] at hgx
          obtain ⟨p, dp, hpa, hgp, hsum, hman, hfree⟩ := hB.chain x dx hxs hgx
          by_cases hpw : p = (cur.1 + d.1, cur.2 + d.2)
          · subst hpw
            have hlt : dc + costAt grid (cur.1 + d.1, cur.2 + d.2) < dp := by
              rw [hgp] at himp
              exact improves_some himp
            refine ⟨(cur.1 + d.1, cur.2 + d.2),
              dc + costAt grid (cur.1 + d.1, cur.2 + d.2), ?_, ?_, ?_, hman, hfree⟩
            · rw [if_neg hxw]
              exact hpa
            · rw [if_pos rfl]
            · omega
          · refine ⟨p, dp, ?_, ?_, hsum, hman, hfree⟩
            · rw [if_neg hxw]
              exact hpa
            · rw [if_neg hpw]
              exact hgp
      · intro e he
        rcases List.mem_cons.mp he with rfl | he
        · exact ⟨dc + costAt grid (cur.1 + d.1, cur.2 + d.2), by rw [if_pos rfl],
            le_rfl, rfl⟩
        · obtain ⟨dv, hdv, hle, hf⟩ := hB.heap_g e he
          by_cases hew : e.2.2 = (cur.1 + d.1, cur.2 + d.2)
          · have hlt : dc + costAt grid (cur.1 + d.1, cur.2 + d.2) < dv := by
              rw [hew] at hdv
              rw [hdv] at himp
              exact improves_some himp
            refine ⟨dc + costAt grid (cur.1 + d.1, cur.2 + d.2), ?_, by omega, hf⟩
            rw [hew, if_pos rfl]
          · exact ⟨dv, by rw [if_neg hew]; exact hdv, hle, hf⟩
      · intro w dw hwcl hgw
        by_cases hww : w = (cur.1 + d.1, cur.2 + d.2)
        · subst hww
          rw [if_pos rfl] at hgw
          injection hgw with hdw
          exact ⟨(dc + costAt grid (cur.1 + d.1, cur.2 + d.2) +
              manhattan (cur.1 + d.1, cur.2 + d.2) goal,
            dc + costAt grid (cur.1 + d.1, cur.2 + d.2),
            (cur.1 + d.1, cur.2 + d.2)), List.mem_cons_self _ _, rfl,
            by dsimp only; omega⟩
        · rw [if_neg hww] at hgw
          obtain ⟨e, he, hcell, hle⟩ := hB.queue_cover w dw hwcl hgw
          exact ⟨e, List.mem_cons_of_mem _ he, hcell, hle⟩
      · exact hB.goal_not_closed
    · dsimp only
      rw [if_neg (fun h => hwne h.symm)]
      exact hgc
    · intro x v h
      dsimp only
      by_cases hxw : x = (cur.1 + d.1, cur.2 + d.2)
      · subst hxw
        rw [h] at himp
        have := improves_some himp
        exact ⟨dc + costAt grid (cur.1 + d.1, cur.2 + d.2), by rw [if_pos rfl],
          by omega⟩
      · exact ⟨v, by rw [if_neg hxw]; exact h, le_rfl⟩
    · dsimp only [List.length_cons]
      omega
    · intro e he
      exact List.mem_cons_of_mem _ he
    · intro _
      dsimp only
      exact ⟨dc + costAt grid (cur.1 + d.1, cur.2 + d.2), by rw [if_pos rfl], le_rfl⟩

/-! ## Lemmas: loop-step preservation of the basic invariant -/

theorem foldl_relax_BInv (grid : Grid) (start goal cur : Cell) :
    ∀ (l : List (ℤ × ℤ)) (st : AState) (dc : ℕ), BInv grid start goal st →
      st.g cur = some dc → (∀ d ∈ l, d.1.natAbs + d.2.natAbs = 1) →
      BInv grid start goal (l.foldl (relax grid goal cur) st) ∧
        (l.foldl (relax grid goal cur) st).g cur = some dc ∧
        (∀ x v, st.g x = some v →
          ∃ v2, (l.foldl (relax grid goal cur) st).g x = some v2 ∧ v2 ≤ v) ∧
        (l.foldl (relax grid goal cur) st).open_heap.length ≤
          st.open_heap.length + l.length ∧
        (∀ e ∈ st.open_heap, e ∈ (l.foldl (relax grid goal cur) st).open_heap) := by
  intro l
  induction l with
  | nil =>
    intro st dc hB hgc _
    exact ⟨hB, hgc, fun x v h => ⟨v, h, le_rfl⟩, by simp, fun e he => he⟩
  | cons d l ihl =>
    intro st dc hB hgc hds
    obtain ⟨hB1, hgc1, hmono1, hlen1, hsup1, _⟩ :=
      relax_BInv grid start goal cur st d hB dc hgc (hds d (List.mem_cons_self d l))
    obtain ⟨hB2, hgc2, hmono2, hlen2, hsup2⟩ :=
      ihl (relax grid goal cur st d) dc hB1 hgc1
        (fun x hx => hds x (List.mem_cons_of_mem d hx))
    rw [List.foldl_cons]
    refine ⟨hB2, hgc2, ?_, ?_, ?_⟩
    · intro x v h
      obtain ⟨v1, h1, hle1⟩ := hmono1 x v h
      obtain ⟨v2, h2, hle2⟩ := hmono2 x v1 h1
      exact ⟨v2, h2, le_trans hle2 hle1⟩
    · simp only [List.length_cons] at *
      omega
    · intro e he
      exact hsup2 e (hsup1 e he)

theorem BInv_recordSnap (grid : Grid) (start goal : Cell) (b : Bool) (st : AState)
    (c : Cell) (h : BInv grid start goal st) :
    BInv grid start goal (recordSnap b st c) := by
  cases b
  · exact h
  · exact ⟨h.nodup, h.closed_ok, h.heap_ok, h.g_start, h.chain, h.heap_g,
      h.queue_cover, h.goal_not_closed⟩

theorem discard_BInv (grid : Grid) (start goal : Cell) (st : AState) (e : Entry)
    (h2 : List Entry) (hB : BInv grid start goal st)
    (hpop : popMin st.open_heap = some (e, h2)) (hmem : e.2.2 ∈ st.closed_set) :
    BInv grid start goal { st with open_heap := h2 } := by
  obtain ⟨hemem, hperm, hmin⟩ := popMin_spec st.open_heap e h2 hpop
  have hsub : ∀ x ∈ h2, x ∈ st.open_heap := fun x hx =>
    hperm.symm.subset (List.mem_cons_of_mem e hx)
  refine ⟨hB.nodup, hB.closed_ok, fun x hx => hB.heap_ok x (hsub x hx), hB.g_start,
    hB.chain, fun x hx => hB.heap_g x (hsub x hx), ?_, hB.goal_not_closed⟩
  intro w dw hwcl hgw
  obtain ⟨x, hx, hcell, hle⟩ := hB.queue_cover w dw hwcl hgw
  rcases List.mem_cons.mp (hperm.subset hx) with rfl | hx2
  · exact absurd (hcell ▸ hmem) hwcl
  · exact ⟨x, hx2, hcell, hle⟩

theorem settle_BInv (grid : Grid) (start goal : Cell) (st : AState) (e : Entry)
    (h2 : List Entry) (hB : BInv grid start goal st)
    (hpop : popMin st.open_heap = some (e, h2)) (hmem : e.2.2 ∉ st.closed_set)
    (hgoal : e.2.2 ≠ goal) :
    BInv grid start goal (settleState st e.2.2 h2) := by
  obtain ⟨hemem, hperm, hmin⟩ := popMin_spec st.open_heap e h2 hpop
  have hsub : ∀ x ∈ h2, x ∈ st.open_heap := fun x hx =>
    hperm.symm.subset (List.mem_cons_of_mem e hx)
  refine ⟨List.nodup_cons.mpr ⟨hmem, hB.nodup⟩, ?_,
    fun x hx => hB.heap_ok x (hsub x hx), hB.g_start, hB.chain,
    fun x hx => hB.heap_g x (hsub x hx), ?_, ?_⟩
  · intro c hc
    rcases List.mem_cons.mp hc with rfl | hc
    · exact hB.heap_ok e hemem
    · exact hB.closed_ok c hc
  · intro w dw hwcl hgw
    rw [settleState_closed, List.mem_cons] at hwcl
    push_neg at hwcl
    obtain ⟨x, hx, hcell, hle⟩ := hB.queue_cover w dw hwcl.2 hgw
    rcases List.mem_cons.mp (hperm.subset hx) with rfl | hx2
    · exact absurd hcell.symm hwcl.1
    · exact ⟨x, hx2, hcell, hle⟩
  · rw [settleState_closed, List.mem_cons]
    push_neg
    exact ⟨fun h => hgoal h.symm, hB.goal_not_closed⟩

/-- Every closed set reachable under the basic invariant has at most
`rows * cols + 1` cells. -/
theorem closed_length_le (grid : Grid) (start goal : Cell) (st : AState)
    (hB : BInv grid start goal st) :
    st.closed_set.length ≤ gridRows grid * gridCols grid + 1 := by
  classical
  set allowedF : Finset Cell := insert start
    (((Finset.range (gridRows grid)) ×ˢ (Finset.range (gridCols grid))).image
      fun p => ((p.1 : ℤ), (p.2 : ℤ))) with hAF
  have hsub : st.closed_set.toFinset ⊆ allowedF := by
    intro c hc
    rw [List.mem_toFinset] at hc
    rcases hB.closed_ok c hc with rfl | hcf
    · exact Finset.mem_insert_self _ _
    · rw [hAF]
      refine Finset.mem_insert_of_mem ?_
      rw [Finset.mem_image]
      obtain ⟨⟨hc1, hc2, hc3, hc4⟩, _⟩ := hcf
      refine ⟨(c.1.toNat, c.2.toNat), ?_, ?_⟩
      · rw [Finset.mem_product, Finset.mem_range, Finset.mem_range]
        constructor <;> omega
      · simp only [Prod.ext_iff]
        constructor <;> dsimp only <;> omega
  have hcard : allowedF.card ≤ gridRows grid * gridCols grid + 1 := by
    refine le_trans (Finset.card_insert_le _ _) ?_
    have h1 := Finset.card_image_le (s := (Finset.range (gridRows grid)) ×ˢ
      (Finset.range (gridCols grid))) (f := fun p : ℕ × ℕ => ((p.1 : ℤ), (p.2 : ℤ)))
    rw [Finset.card_product, Finset.card_range, Finset.card_range] at h1
    omega
  calc st.closed_set.length = st.closed_set.toFinset.card :=
        (List.toFinset_card_of_nodup hB.nodup).symm
    _ ≤ allowedF.card := Finset.card_le_card hsub
    _ ≤ gridRows grid * gridCols grid + 1 := hcard

/-! ## Lemmas: termination of the main loop -/

theorem astarLoop_total (grid : Grid) (start goal : Cell) (rec : Bool) :
    ∀ (fuel : ℕ) (st : AState), BInv grid start goal st →
      measureA grid st < fuel → astarLoop grid start goal rec fuel st ≠ none := by
  intro fuel
  induction fuel with
  | zero => intro st _ hm; omega
  | succ fuel ih =>
    intro st hB hm
    simp only [astarLoop]
    cases hpop : popMin st.open_heap with
    | none => simp
    | some pr =>
      obtain ⟨e, h2⟩ := pr
      obtain ⟨hemem, hperm, hmin⟩ := popMin_spec st.open_heap e h2 hpop
      have hlen : st.open_heap.length = h2.length + 1 := by
        have h := hperm.length_eq
        simpa using h
      dsimp only
      by_cases hmem : e.2.2 ∈ st.closed_set
      · rw [if_pos hmem]
        refine ih _ (discard_BInv grid start goal st e h2 hB hpop hmem) ?_
        unfold measureA at hm ⊢
        dsimp only
        omega
      · rw [if_neg hmem]
        obtain ⟨dv, hgv, hdvle, hf⟩ := hB.heap_g e hemem
        by_cases hgoal : e.2.2 = goal
        · rw [if_pos hgoal]
          have hg2 : (recordSnap rec (settleState st e.2.2 h2) e.2.2).g = st.g := by
            rw [recordSnap_g, settleState_g]
          have hp2 : (recordSnap rec (settleState st e.2.2 h2) e.2.2).parent =
              st.parent := by
            rw [recordSnap_parent, settleState_parent]
          obtain ⟨L, hrec, _⟩ :=
            reconstruct_of_chain grid start st.parent st.g hB.chain dv e.2.2 hgv
          rw [hg2, hp2, hgv]
          simp only [Option.getD_some]
          rw [hrec (dv + 1) le_rfl []]
          simp
        · rw [if_neg hgoal]
          have hBs := settle_BInv grid start goal st e h2 hB hpop hmem hgoal
          have hB2 := BInv_recordSnap grid start goal rec _ e.2.2 hBs
          have hg2 : (recordSnap rec (settleState st e.2.2 h2) e.2.2).g e.2.2 =
              some dv := by
            rw [recordSnap_g, settleState_g]
            exact hgv
          obtain ⟨hB3, _, _, hlen3, _⟩ := foldl_relax_BInv grid start goal e.2.2
            offsets _ dv hB2 hg2 (fun d hd => offsets_unit hd)
          refine ih _ hB3 ?_
          have hcl : (e.2.2 :: st.closed_set).length ≤
              gridRows grid * gridCols grid + 1 := by
            have h := closed_length_le grid start goal _ hBs
            simpa [settleState_closed] using h
          have hheap2 : (recordSnap rec (settleState st e.2.2 h2) e.2.2).open_heap =
              h2 := by
            rw [recordSnap_open_heap, settleState_open_heap]
          have hclosed3 : (offsets.foldl (relax grid goal e.2.2)
              (recordSnap rec (settleState st e.2.2 h2) e.2.2)).closed_set =
              e.2.2 :: st.closed_set := by
            rw [foldl_relax_closed, recordSnap_closed, settleState_closed]
          have hoff : offsets.length = 4 := rfl
          unfold measureA at hm ⊢
          rw [hclosed3]
          rw [hheap2, hoff] at hlen3
          simp only [List.length_cons] at *
          omega

theorem astarInit_BInv (grid : Grid) (start goal : Cell) :
    BInv grid start goal (astarInit grid start goal) := by
  refine ⟨List.nodup_nil, by simp [astarInit], ?_, ?_, ?_, ?_, ?_, by simp [astarInit]⟩
  · intro e he
    simp only [astarInit, List.mem_singleton] at he
    subst he
    exact Or.inl rfl
  · simp [astarInit]
  · intro x d hxs hgx
    simp [astarInit, if_neg hxs] at hgx
  · intro e he
    simp only [astarInit, List.mem_singleton] at he
    subst he
    refine ⟨0, by simp [astarInit], le_rfl, by simp⟩
  · intro w dw _ hgw
    by_cases hws : w = start
    · subst hws
      simp only [astarInit, if_pos rfl, Option.some.injEq] at hgw
      exact ⟨(manhattan w goal, 0, w), List.mem_singleton_self _, rfl,
        by dsimp only; omega⟩
    · simp [astarInit, if_neg hws] at hgw

theorem astar_returns (grid : Grid) (start goal : Cell) (rec : Bool) :
    astar grid start goal rec (astarFuel grid) ≠ none := by
  apply astarLoop_total grid start goal rec (astarFuel grid) _
    (astarInit_BInv grid start goal)
  unfold measureA astarFuel astarInit
  simp only [List.length_singleton, List.length_nil]
  omega

/-- Claim C10: the main loop of `astar` terminates on every finite grid and
all endpoints: each cell enters the closed set at most once, later pops of it
are discarded, and the number of pushes per expansion is at most four, so the
explicit fuel budget `astarFuel grid = 5*(rows*cols+1)+2` bounds the total
number of heap pops and the loop always completes (no fuel exhaustion). -/
theorem c10_astar_terminates (grid : Grid) (start goal : Cell) (rec : Bool) :
    astar grid start goal rec (astarFuel grid) ≠ none :=
  astar_returns grid start goal rec

theorem astarLoop_path_sound (grid : Grid) (start goal : Cell) (rec : Bool) :
    ∀ (fuel : ℕ) (st : AState) (r : AResult), BInv grid start goal st →
      astarLoop grid start goal rec fuel st = some (some r) →
      r.path ≠ [] ∧ r.path.head? = some start ∧ r.path.getLast? = some goal ∧
        r.path.Chain' (fun a b => manhattan a b = 1) ∧
        ∀ c ∈ r.path.tail, cellFree grid c := by
  intro fuel
  induction fuel with
  | zero => intro st r _ heq; simp [astarLoop] at heq
  | succ fuel ih =>
    intro st r hB heq
    simp only [astarLoop] at heq
    cases hpop : popMin st.open_heap with
    | none => rw [hpop] at heq; simp at heq
    | some pr =>
      obtain ⟨e, h2⟩ := pr
      rw [hpop] at heq
      dsimp only at heq
      obtain ⟨hemem, hperm, hmin⟩ := popMin_spec st.open_heap e h2 hpop
      by_cases hmem : e.2.2 ∈ st.closed_set
      · rw [if_pos hmem] at heq
        exact ih _ r (discard_BInv grid start goal st e h2 hB hpop hmem) heq
      · rw [if_neg hmem] at heq
        obtain ⟨dv, hgv, hdvle, hf⟩ := hB.heap_g e hemem
        by_cases hgoal : e.2.2 = goal
        · rw [if_pos hgoal] at heq
          have hg2 : (recordSnap rec (settleState st e.2.2 h2) e.2.2).g = st.g := by
            rw [recordSnap_g, settleState_g]
          have hp2 : (recordSnap rec (settleState st e.2.2 h2) e.2.2).parent =
              st.parent := by
            rw [recordSnap_parent, settleState_parent]
          obtain ⟨L, hrec, hne, hhead, hlast, hchain, htail, hcost⟩ :=
            reconstruct_of_chain grid start st.parent st.g hB.chain dv e.2.2 hgv
          rw [hg2, hp2, hgv] at heq
          simp only [Option.getD_some] at heq
          rw [hrec (dv + 1) le_rfl []] at heq
          simp only [List.reverse_nil, List.append_nil, Option.some.injEq] at heq
          subst heq
          exact ⟨hne, hhead, hgoal ▸ hlast, hchain, htail⟩
        · rw [if_neg hgoal] at heq
          have hBs := settle_BInv grid start goal st e h2 hB hpop hmem hgoal
          have hB2 := BInv_recordSnap grid start goal rec _ e.2.2 hBs
          have hg2 : (recordSnap rec (settleState st e.2.2 h2) e.2.2).g e.2.2 =
              some dv := by
            rw [recordSnap_g, settleState_g]
            exact hgv
          obtain ⟨hB3, _, _, _, _⟩ := foldl_relax_BInv grid start goal e.2.2
            offsets _ dv hB2 hg2 (fun d hd => offsets_unit hd)
          exact ih _ r hB3 heq

/-- Counterexample to claim C5 as stated: `astar` called with the start cell
on a Wall (here `start = goal = (0,0)` on a 1×1 all-Wall grid) returns the
path `[(0,0)]`, which contains a Wall cell. -/
theorem c5_wall_start_counterexample :
    astar wGridWall (0, 0) (0, 0) false 5 = some (some ⟨[(0, 0)], 1, []⟩) ∧
      isWallCell wGridWall (0, 0) :=
  ⟨rfl, by decide⟩

/-- Claim C5 (amended): whenever `astar` returns a path, its first element is
`start`, its last element is `goal`, consecutive cells are 4-directionally
adjacent, and no cell other than possibly the start cell is a Wall cell (in
particular, when the start cell is not a Wall, no path cell is a Wall). -/
theorem c5_path_wellformed (grid : Grid) (start goal : Cell) (rec : Bool)
    (fuel : ℕ) (r : AResult) (h : astar grid start goal rec fuel = some (some r)) :
    r.path.head? = some start ∧ r.path.getLast? = some goal ∧
      r.path.Chain' (fun a b => manhattan a b = 1) ∧
      (∀ c ∈ r.path.tail, ¬ isWallCell grid c) ∧
      (¬ isWallCell grid start → ∀ c ∈ r.path, ¬ isWallCell grid c) := by
  obtain ⟨hne, hhead, hlast, hchain, htail⟩ := astarLoop_path_sound grid start goal
    rec fuel _ r (astarInit_BInv grid start goal) h
  have htail2 : ∀ c ∈ r.path.tail, ¬ isWallCell grid c := by
    intro c hc hw
    exact (htail c hc).2 hw.2
  refine ⟨hhead, hlast, hchain, htail2, ?_⟩
  intro hstart c hc
  obtain ⟨a, t, hat⟩ := List.exists_cons_of_ne_nil hne
  rw [hat] at hhead hc
  simp only [List.head?_cons, Option.some.injEq] at hhead
  subst hhead
  rcases List.mem_cons.mp hc with rfl | hc
  · exact hstart
  · exact htail2 c (by rw [hat]; exact hc)

/-- Witness for C5 on a concrete solved instance. -/
theorem c5_path_wellformed_witness :
    ([(((0 : ℤ), (0 : ℤ))), ((0 : ℤ), (1 : ℤ)), ((1 : ℤ), (1 : ℤ))] :
        List Cell).head? = some (0, 0) ∧
      ([(((0 : ℤ), (0 : ℤ))), ((0 : ℤ), (1 : ℤ)), ((1 : ℤ), (1 : ℤ))] :
        List Cell).getLast? = some (1, 1) ∧
      ([(((0 : ℤ), (0 : ℤ))), ((0 : ℤ), (1 : ℤ)), ((1 : ℤ), (1 : ℤ))] :
        List Cell).Chain' (fun a b => manhattan a b = 1) ∧
      (∀ c ∈ ([(((0 : ℤ), (0 : ℤ))), ((0 : ℤ), (1 : ℤ)), ((1 : ℤ), (1 : ℤ))] :
        List Cell).tail, ¬ isWallCell wGrid2 c) ∧
      (¬ isWallCell wGrid2 (0, 0) →
        ∀ c ∈ ([(((0 : ℤ), (0 : ℤ))), ((0 : ℤ), (1 : ℤ)), ((1 : ℤ), (1 : ℤ))] :
          List Cell), ¬ isWallCell wGrid2 c) :=
  c5_path_wellformed wGrid2 (0, 0) (1, 1) false 27
    ⟨[((0 : ℤ), (0 : ℤ)), ((0 : ℤ), (1 : ℤ)), ((1 : ℤ), (1 : ℤ))], 4, []⟩ rfl

/-- Counterexample to claim C3 as stated: `astar` called with an out-of-bounds
start runs the search and returns the structured not-found marker instead of
failing with any InvalidEndpoint error (the code contains no such check). -/
theorem c3_no_endpoint_validation_counterexample :
    ¬ inBounds wGridWall (5, 5) ∧
      astar wGridWall (5, 5) (0, 0) false (astarFuel wGridWall) = some none :=
  ⟨by decide, rfl⟩

/-- Claim C3 (amended): `astar` performs no endpoint validation; called with a
start or goal outside the grid bounds or on a Wall cell it still runs the
search to completion and returns an ordinary result (a path or the not-found
marker), never an InvalidEndpoint failure. -/
theorem c3_no_endpoint_validation (grid : Grid) (start goal : Cell) (rec : Bool)
    (hbad : ¬ inBounds grid start ∨ isWallCell grid start ∨
      ¬ inBounds grid goal ∨ isWallCell grid goal) :
    ∃ r, astar grid start goal rec (astarFuel grid) = some r := by
  have h := astar_returns grid start goal rec
  exact Option.ne_none_iff_exists'.mp h

/-- Witness for C3 on a concrete invalid call. -/
theorem c3_no_endpoint_validation_witness :
    (¬ inBounds wGridWall (0, 0) ∨ isWallCell wGridWall (0, 0) ∨
      ¬ inBounds wGridWall (0, 0) ∨ isWallCell wGridWall (0, 0)) ∧
      ∃ r, astar wGridWall (0, 0) (0, 0) false (astarFuel wGridWall) = some r :=
  ⟨Or.inr (Or.inl (by decide)),
    c3_no_endpoint_validation wGridWall (0, 0) (0, 0) false
      (Or.inr (Or.inl (by decide)))⟩

/-! ## Lemmas: preservation of the optimality invariant -/

theorem astarInit_OInv (grid : Grid) (start goal : Cell)
    (hstart : cellFree grid start) : OInv grid start (astarInit grid start goal) := by
  refine ⟨?_, ?_, ?_⟩
  · intro v hv
    simp [astarInit] at hv
  · intro x dx hgx
    by_cases hxs : x = start
    · subst hxs
      have h0 := (astarInit_BInv grid x goal).g_start
      rw [h0] at hgx
      injection hgx with hdx
      subst hdx
      exact ⟨[x], validPath_single grid x hstart, by simp [pathCost]⟩
    · simp [astarInit, if_neg hxs] at hgx
  · intro v hv
    simp [astarInit] at hv

theorem relax_OInv (grid : Grid) (start goal cur : Cell) (st : AState) (d : ℤ × ℤ)
    (hB : BInv grid start goal st) (dc : ℕ) (hgc : st.g cur = some dc)
    (hcc : cur ∈ st.closed_set) (hsc : IsShortest grid start cur dc)
    (hd : d.1.natAbs + d.2.natAbs = 1)
    (hset : SettledInv grid start st) (hgs : GSoundInv grid start st)
    (hfr : FrontierInv grid cur st) :
    (∀ v ∈ st.closed_set, (relax grid goal cur st d).g v = st.g v) ∧
      SettledInv grid start (relax grid goal cur st d) ∧
      GSoundInv grid start (relax grid goal cur st d) ∧
      FrontierInv grid cur (relax grid goal cur st d) := by
  have htent : (st.g cur).getD 0 = dc := by rw [hgc]; rfl
  have hadj : manhattan cur (cur.1 + d.1, cur.2 + d.2) = 1 := manhattan_offset cur hd
  rcases relax_char grid goal cur st d with ⟨hncf, heq⟩ | ⟨hcf, himp, heq⟩ |
    ⟨hcf, himp, heq⟩
  · rw [heq]
    exact ⟨fun v _ => rfl, hset, hgs, hfr⟩
  · rw [heq]
    exact ⟨fun v _ => rfl, hset, hgs, hfr⟩
  · rw [htent] at himp heq
    obtain ⟨Lc, hLc, hLcc⟩ := hsc.1
    have hvpw := validPath_concat grid start cur (cur.1 + d.1, cur.2 + d.2) Lc hLc
      hadj hcf
    have hcw : pathCost grid (Lc ++ [(cur.1 + d.1, cur.2 + d.2)]) =
        dc + costAt grid (cur.1 + d.1, cur.2 + d.2) := by
      rw [pathCost_concat grid Lc _ hLc.1, hLcc]
    have hnclosed : (cur.1 + d.1, cur.2 + d.2) ∉ st.closed_set := by
      intro hmem
      obtain ⟨dvv, hgw, hsw⟩ := hset _ hmem
      rw [hgw] at himp
      have hlt := improves_some himp
      have hub := hsw.2 _ hvpw
      omega
    have hgunch : ∀ v ∈ st.closed_set, (relax grid goal cur st d).g v = st.g v := by
      intro v hv
      rw [heq]
      dsimp only
      rw [if_neg]
      intro hvw
      exact hnclosed (hvw ▸ hv)
    refine ⟨hgunch, ?_, ?_, ?_⟩
    · intro v hv
      have hcl : (relax grid goal cur st d).closed_set = st.closed_set :=
        relax_closed grid goal cur st d
      rw [hcl] at hv
      obtain ⟨dvv, hgv, hsv⟩ := hset v hv
      exact ⟨dvv, by rw [hgunch v hv]; exact hgv, hsv⟩
    · intro x dx hgx
      rw [heq] at hgx
      dsimp only at hgx
      by_cases hxw : x = (cur.1 + d.1, cur.2 + d.2)
      · subst hxw
        rw [if_pos rfl] at hgx
        injection hgx with hdx
        exact ⟨Lc ++ [(cur.1 + d.1, cur.2 + d.2)], hvpw, by omega⟩
      · rw [if_neg hxw] at hgx
        exact hgs x dx hgx
    · intro v hv hvne w hmw hwfree hwn
      have hcl : (relax grid goal cur st d).closed_set = st.closed_set :=
        relax_closed grid goal cur st d
      rw [hcl] at hv hwn
      obtain ⟨dv2, dw2, hgv2, hgw2, hle2⟩ := hfr v hv hvne w hmw hwfree hwn
      by_cases hww : w = (cur.1 + d.1, cur.2 + d.2)
      · subst hww
        rw [hgw2] at himp
        have hlt := improves_some himp
        refine ⟨dv2, dc + costAt grid (cur.1 + d.1, cur.2 + d.2), ?_, ?_, by omega⟩
        · rw [hgunch v hv]
          exact hgv2
        · rw [heq]
          dsimp only
          rw [if_pos rfl]
      · refine ⟨dv2, dw2, ?_, ?_, hle2⟩
        · rw [hgunch v hv]
          exact hgv2
        · rw [heq]
          dsimp only
          rw [if_neg hww]
          exact hgw2

theorem foldl_relax_OInv (grid : Grid) (start goal cur : Cell) :
    ∀ (l : List (ℤ × ℤ)) (st : AState) (dc : ℕ),
      BInv grid start goal st → st.g cur = some dc → cur ∈ st.closed_set →
      IsShortest grid start cur dc →
      (∀ d2 ∈ l, d2.1.natAbs + d2.2.natAbs = 1) →
      SettledInv grid start st → GSoundInv grid start st →
      FrontierInv grid cur st →
      BInv grid start goal (l.foldl (relax grid goal cur) st) ∧
        (l.foldl (relax grid goal cur) st).g cur = some dc ∧
        SettledInv grid start (l.foldl (relax grid goal cur) st) ∧
        GSoundInv grid start (l.foldl (relax grid goal cur) st) ∧
        FrontierInv grid cur (l.foldl (relax grid goal cur) st) ∧
        (∀ d2 ∈ l, cellFree grid (cur.1 + d2.1, cur.2 + d2.2) →
          ∃ dw, (l.foldl (relax grid goal cur) st).g (cur.1 + d2.1, cur.2 + d2.2) =
            some dw ∧ dw ≤ dc + costAt grid (cur.1 + d2.1, cur.2 + d2.2)) := by
  intro l
  induction l with
  | nil =>
    intro st dc hB hgc hcc hsc _ hset hgs hfr
    exact ⟨hB, hgc, hset, hgs, hfr, by simp⟩
  | cons d2 l ihl =>
    intro st dc hB hgc hcc hsc hds hset hgs hfr
    have hd2 : d2.1.natAbs + d2.2.natAbs = 1 := hds d2 (List.mem_cons_self d2 l)
    obtain ⟨hB1, hgc1, hmono1, _, _, hNbr1⟩ :=
      relax_BInv grid start goal cur st d2 hB dc hgc hd2
    obtain ⟨hgunch, hset1, hgs1, hfr1⟩ :=
      relax_OInv grid start goal cur st d2 hB dc hgc hcc hsc hd2 hset hgs hfr
    have hcc1 : cur ∈ (relax grid goal cur st d2).closed_set := by
      rw [relax_closed]
      exact hcc
    obtain ⟨hB2, hgc2, hset2, hgs2, hfr2, hNbr2⟩ := ihl (relax grid goal cur st d2)
      dc hB1 hgc1 hcc1 hsc (fun x hx => hds x (List.mem_cons_of_mem d2 hx))
      hset1 hgs1 hfr1
    obtain ⟨_, _, hmonoR, _, _⟩ := foldl_relax_BInv grid start goal cur l
      (relax grid goal cur st d2) dc hB1 hgc1
      (fun x hx => hds x (List.mem_cons_of_mem d2 hx))
    rw [List.foldl_cons]
    refine ⟨hB2, hgc2, hset2, hgs2, hfr2, ?_⟩
    intro d3 hd3 hcf3
    rcases List.mem_cons.mp hd3 with rfl | hd3
    · obtain ⟨dw, hdw, hdwle⟩ := hNbr1 hcf3
      obtain ⟨dw2, hdw2, hdw2le⟩ := hmonoR _ dw hdw
      exact ⟨dw2, hdw2, by omega⟩
    · exact hNbr2 d3 hd3 hcf3

theorem entryLE_fst_le {a b : Entry} (h : entryLE a b) : a.1 ≤ b.1 := by
  unfold entryLE at h
  omega

/-! ## Lemmas: the cover argument for optimality -/

theorem frontier_path (grid : Grid) (start goal : Cell) (st : AState)
    (hB : BInv grid start goal st) (hset : SettledInv grid start st)
    (hfull : FullFrontierInv grid st) :
    ∀ (q : List Cell) (x v : Cell) (dx : ℕ), ValidPath grid x v q →
      x ∈ st.closed_set → v ∉ st.closed_set → st.g x = some dx →
      IsShortest grid start x dx →
      ∃ e ∈ st.open_heap, e.1 ≤ dx + pathCost grid q + manhattan v goal := by
  intro q
  induction q with
  | nil => intro x v dx hv; exact absurd rfl hv.1
  | cons a q ihq =>
    intro x v dx hv hx hvn hgx hsx
    cases q with
    | nil =>
      obtain ⟨rfl, rfl⟩ := validPath_single_elim grid x v a hv
      exact absurd hx hvn
    | cons b q2 =>
      obtain ⟨ha, hadj, hrest⟩ := validPath_cons_elim grid x v a b q2 hv
      subst ha
      have hbfree : cellFree grid b := hv.2.2.2.2 b (by simp)
      by_cases hbc : b ∈ st.closed_set
      · obtain ⟨db, hgb, hsb⟩ := hset b hbc
        obtain ⟨Lx, hLx, hLxc⟩ := hsx.1
        have hvp2 := validPath_concat grid start a b Lx hLx hadj hbfree
        have hc2 : pathCost grid (Lx ++ [b]) = dx + costAt grid b := by
          rw [pathCost_concat grid Lx b hLx.1, hLxc]
        have hdb : db ≤ dx + costAt grid b := by
          have h := hsb.2 (Lx ++ [b]) hvp2
          omega
        obtain ⟨e, he, hle⟩ := ihq b v db hrest hbc hvn hgb hsb
        refine ⟨e, he, ?_⟩
        rw [pathCost_cons_cons]
        omega
      · obtain ⟨dvx, dwb, hgx2, hgb, hleb⟩ := hfull a hx b hadj hbfree hbc
        have hdvx : dvx = dx := by
          rw [hgx] at hgx2
          injection hgx2 with h
          omega
        obtain ⟨e, he, hcell, hle⟩ := hB.queue_cover b dwb hbc hgb
        obtain ⟨dv2, hgb2, hdv2, hfe⟩ := hB.heap_g e he
        have hcons := manhattan_consistency grid goal (b :: q2) b v hrest
        refine ⟨e, he, ?_⟩
        rw [pathCost_cons_cons]
        rw [hcell] at hfe
        omega

theorem heap_cover (grid : Grid) (start goal : Cell) (st : AState)
    (hB : BInv grid start goal st) (hset : SettledInv grid start st)
    (hfull : FullFrontierInv grid st) :
    ∀ (q : List Cell) (v : Cell), ValidPath grid start v q → v ∉ st.closed_set →
      ∃ e ∈ st.open_heap, e.1 ≤ pathCost grid q + manhattan v goal := by
  intro q v hq hvn
  by_cases hsc : start ∈ st.closed_set
  · obtain ⟨d0, hg0, hs0⟩ := hset start hsc
    have hd0 : d0 = 0 := by
      rw [hB.g_start] at hg0
      injection hg0 with h
      omega
    subst hd0
    obtain ⟨e, he, hle⟩ := frontier_path grid start goal st hB hset hfull q start v
      0 hq hsc hvn hB.g_start hs0
    exact ⟨e, he, by omega⟩
  · obtain ⟨e, he, hcell, hle⟩ := hB.queue_cover start 0 hsc hB.g_start
    obtain ⟨dv2, hgs2, hdv2, hfe⟩ := hB.heap_g e he
    have hcons := manhattan_consistency grid goal q start v hq
    rw [hcell] at hfe
    exact ⟨e, he, by omega⟩

/-- At a pop of an unsettled cell, its dictionary `g` value is a shortest
distance: this is the heart of A* optimality with a consistent heuristic. -/
theorem pop_shortest (grid : Grid) (start goal : Cell) (st : AState) (e : Entry)
    (h2 : List Entry) (hB : BInv grid start goal st)
    (hset : SettledInv grid start st) (hgs : GSoundInv grid start st)
    (hfull : FullFrontierInv grid st)
    (hpop : popMin st.open_heap = some (e, h2)) (hnc : e.2.2 ∉ st.closed_set) :
    ∃ dv, st.g e.2.2 = some dv ∧ dv ≤ e.2.1 ∧ IsShortest grid start e.2.2 dv := by
  obtain ⟨hemem, hperm, hmin⟩ := popMin_spec st.open_heap e h2 hpop
  obtain ⟨dv, hgv, hdvle, hf⟩ := hB.heap_g e hemem
  refine ⟨dv, hgv, hdvle, hgs e.2.2 dv hgv, ?_⟩
  intro L hL
  obtain ⟨x, hxmem, hxle⟩ := heap_cover grid start goal st hB hset hfull L e.2.2
    hL hnc
  have h1 : e.1 ≤ x.1 := entryLE_fst_le (hmin x hxmem)
  omega

theorem SettledInv_recordSnap (grid : Grid) (start : Cell) (b : Bool) (st : AState)
    (c : Cell) (h : SettledInv grid start st) :
    SettledInv grid start (recordSnap b st c) := by
  cases b
  · exact h
  · exact h

theorem GSoundInv_recordSnap (grid : Grid) (start : Cell) (b : Bool) (st : AState)
    (c : Cell) (h : GSoundInv grid start st) :
    GSoundInv grid start (recordSnap b st c) := by
  cases b
  · exact h
  · exact h

theorem FrontierInv_recordSnap (grid : Grid) (ex : Cell) (b : Bool) (st : AState)
    (c : Cell) (h : FrontierInv grid ex st) :
    FrontierInv grid ex (recordSnap b st c) := by
  cases b
  · exact h
  · exact h

theorem settle_opt (grid : Grid) (start goal : Cell) (st : AState) (e : Entry)
    (h2 : List Entry) (hB : BInv grid start goal st)
    (hO : OInv grid start st)
    (hpop : popMin st.open_heap = some (e, h2)) (hnc : e.2.2 ∉ st.closed_set) :
    ∃ dv, st.g e.2.2 = some dv ∧ dv ≤ e.2.1 ∧ IsShortest grid start e.2.2 dv ∧
      SettledInv grid start (settleState st e.2.2 h2) ∧
      GSoundInv grid start (settleState st e.2.2 h2) ∧
      FrontierInv grid e.2.2 (settleState st e.2.2 h2) := by
  obtain ⟨hset, hgs, hfull⟩ := hO
  obtain ⟨dv, hgv, hdvle, hshort⟩ := pop_shortest grid start goal st e h2 hB hset
    hgs hfull hpop hnc
  refine ⟨dv, hgv, hdvle, hshort, ?_, hgs, ?_⟩
  · intro v hv
    rw [settleState_closed, List.mem_cons] at hv
    rcases hv with rfl | hv
    · exact ⟨dv, hgv, hshort⟩
    · exact hset v hv
  · intro v hv hvne w hmw hwfree hwn
    rw [settleState_closed, List.mem_cons] at hv hwn
    push_neg at hwn
    rcases hv with rfl | hv
    · exact absurd rfl hvne
    · exact hfull v hv w hmw hwfree hwn.2

theorem validPath_of_parts (grid : Grid) (start goal : Cell) (L : List Cell)
    (hne : L ≠ []) (hhead : L.head? = some start) (hlast : L.getLast? = some goal)
    (hchain : L.Chain' (fun a b => manhattan a b = 1))
    (htail : ∀ c ∈ L.tail, cellFree grid c) (hstart : cellFree grid start) :
    ValidPath grid start goal L := by
  refine ⟨hne, hhead, hlast, hchain, ?_⟩
  obtain ⟨a, t, rfl⟩ := List.exists_cons_of_ne_nil hne
  simp only [List.head?_cons, Option.some.injEq] at hhead
  subst hhead
  intro c hc
  rcases List.mem_cons.mp hc with rfl | hc
  · exact hstart
  · exact htail c hc

/-- The main optimality and completeness invariant of the A* loop: any normal
return is a not-found marker only when no valid path exists, and any returned
path is valid and cost-minimal. -/
theorem astarLoop_opt (grid : Grid) (start goal : Cell) (rec : Bool)
    (hstart : cellFree grid start) :
    ∀ (fuel : ℕ) (st : AState) (r : Option AResult), BInv grid start goal st →
      OInv grid start st →
      astarLoop grid start goal rec fuel st = some r →
      (r = none → ∀ q, ¬ ValidPath grid start goal q) ∧
      (∀ res, r = some res → ValidPath grid start goal res.path ∧
        ∀ q, ValidPath grid start goal q →
          pathCost grid res.path ≤ pathCost grid q) := by
  intro fuel
  induction fuel with
  | zero => intro st r _ _ heq; simp [astarLoop] at heq
  | succ fuel ih =>
    intro st r hB hO heq
    simp only [astarLoop] at heq
    cases hpop : popMin st.open_heap with
    | none =>
      rw [hpop] at heq
      simp only [Option.some.injEq] at heq
      subst heq
      constructor
      · intro _ q hq
        have hheap : st.open_heap = [] := (popMin_none_iff st.open_heap).mp hpop
        obtain ⟨x, hxmem, _⟩ := heap_cover grid start goal st hB hO.1 hO.2.2 q goal
          hq hB.goal_not_closed
        rw [hheap] at hxmem
        simp at hxmem
      · intro res hres
        simp at hres
    | some pr =>
      obtain ⟨e, h2⟩ := pr
      rw [hpop] at heq
      dsimp only at heq
      by_cases hmem : e.2.2 ∈ st.closed_set
      · rw [if_pos hmem] at heq
        exact ih _ r (discard_BInv grid start goal st e h2 hB hpop hmem) hO heq
      · rw [if_neg hmem] at heq
        obtain ⟨dv, hgv, hdvle, hshort, hset2, hgs2, hfr2⟩ :=
          settle_opt grid start goal st e h2 hB hO hpop hmem
        by_cases hgoal : e.2.2 = goal
        · rw [if_pos hgoal] at heq
          have hg2 : (recordSnap rec (settleState st e.2.2 h2) e.2.2).g = st.g := by
            rw [recordSnap_g, settleState_g]
          have hp2 : (recordSnap rec (settleState st e.2.2 h2) e.2.2).parent =
              st.parent := by
            rw [recordSnap_parent, settleState_parent]
          obtain ⟨L, hrec, hne, hhead, hlast, hchain, htail, hcost⟩ :=
            reconstruct_of_chain grid start st.parent st.g hB.chain dv e.2.2 hgv
          rw [hg2, hp2, hgv] at heq
          simp only [Option.getD_some] at heq
          rw [hrec (dv + 1) le_rfl []] at heq
          simp only [List.reverse_nil, List.append_nil, Option.some.injEq] at heq
          subst heq
          constructor
          · intro hcon
            simp at hcon
          · intro res hres
            simp only [Option.some.injEq] at hres
            subst hres
            have hvp := validPath_of_parts grid start goal L hne hhead
              (hgoal ▸ hlast) hchain htail hstart
            refine ⟨hvp, ?_⟩
            intro q hq
            have hlow := hshort.2 q (hgoal ▸ hq)
            dsimp only
            omega
        · rw [if_neg hgoal] at heq
          have hBs := settle_BInv grid start goal st e h2 hB hpop hmem hgoal
          have hB2 := BInv_recordSnap grid start goal rec _ e.2.2 hBs
          have hg2 : (recordSnap rec (settleState st e.2.2 h2) e.2.2).g e.2.2 =
              some dv := by
            rw [recordSnap_g, settleState_g]
            exact hgv
          have hcc2 : e.2.2 ∈ (recordSnap rec (settleState st e.2.2 h2)
              e.2.2).closed_set := by
            rw [recordSnap_closed, settleState_closed]
            exact List.mem_cons_self _ _
          obtain ⟨hB3, hgc3, hset3, hgs3, hfr3, hNbr3⟩ :=
            foldl_relax_OInv grid start goal e.2.2 offsets
              (recordSnap rec (settleState st e.2.2 h2) e.2.2) dv hB2 hg2 hcc2
              hshort (fun d hd => offsets_unit hd)
              (SettledInv_recordSnap grid start rec _ e.2.2 hset2)
              (GSoundInv_recordSnap grid start rec _ e.2.2 hgs2)
              (FrontierInv_recordSnap grid e.2.2 rec _ e.2.2 hfr2)
          have hclosed3 : (offsets.foldl (relax grid goal e.2.2)
              (recordSnap rec (settleState st e.2.2 h2) e.2.2)).closed_set =
              e.2.2 :: st.closed_set := by
            rw [foldl_relax_closed, recordSnap_closed, settleState_closed]
          have hfull3 : FullFrontierInv grid (offsets.foldl (relax grid goal e.2.2)
              (recordSnap rec (settleState st e.2.2 h2) e.2.2)) := by
            intro v hv w hmw hwfree hwn
            by_cases hvc : v = e.2.2
            · subst hvc
              obtain ⟨d2, hd2, hw2⟩ := adj_offset hmw
              subst hw2
              obtain ⟨dw, hdw, hdwle⟩ := hNbr3 d2 hd2 hwfree
              exact ⟨dv, dw, hgc3, hdw, hdwle⟩
            · exact hfr3 v hv hvc w hmw hwfree hwn
          exact ih _ r hB3 ⟨hset3, hgs3, hfull3⟩ heq

/-- Claim C1: on a rectangular grid with distinct in-bounds non-Wall start
and goal connected by at least one valid 4-directional non-Wall path, `astar`
returns a path whose total traversal cost (entered tiles, start excluded,
Normal = 1, Mud = 3) is minimal among all valid paths. -/
theorem c1_astar_optimal (grid : Grid) (start goal : Cell) (rec : Bool)
    (hrect : IsRect grid) (hne : start ≠ goal)
    (hstart : cellFree grid start) (hgoal : cellFree grid goal)
    (hpath : ∃ q, ValidPath grid start goal q) :
    ∃ res, astar grid start goal rec (astarFuel grid) = some (some res) ∧
      ValidPath grid start goal res.path ∧
      ∀ q, ValidPath grid start goal q →
        pathCost grid res.path ≤ pathCost grid q := by
  obtain ⟨r, hr⟩ := Option.ne_none_iff_exists'.mp (astar_returns grid start goal rec)
  have hopt := astarLoop_opt grid start goal rec hstart (astarFuel grid) _ r
    (astarInit_BInv grid start goal) (astarInit_OInv grid start goal hstart) hr
  cases r with
  | none =>
    obtain ⟨q, hq⟩ := hpath
    exact absurd hq (hopt.1 rfl q)
  | some res => exact ⟨res, hr, hopt.2 res rfl⟩

theorem wGrid2_path_valid :
    ValidPath wGrid2 (0, 0) (1, 1) [(0, 0), (0, 1), (1, 1)] := by
  refine ⟨by decide, rfl, rfl, ?_, by decide⟩
  exact List.Chain'.cons (by decide)
    (List.Chain'.cons (by decide) (List.chain'_singleton _))

/-- Witness for C1 on a concrete 2×2 grid. -/
theorem c1_astar_optimal_witness :
    IsRect wGrid2 ∧ ((0 : ℤ), (0 : ℤ)) ≠ ((1 : ℤ), (1 : ℤ)) ∧
      cellFree wGrid2 (0, 0) ∧ cellFree wGrid2 (1, 1) ∧
      (∃ q, ValidPath wGrid2 (0, 0) (1, 1) q) ∧
      ∃ res, astar wGrid2 (0, 0) (1, 1) false (astarFuel wGrid2) =
          some (some res) ∧
        ValidPath wGrid2 (0, 0) (1, 1) res.path ∧
        ∀ q, ValidPath wGrid2 (0, 0) (1, 1) q →
          pathCost wGrid2 res.path ≤ pathCost wGrid2 q :=
  ⟨by decide, by decide, by decide, by decide,
    ⟨[(0, 0), (0, 1), (1, 1)], wGrid2_path_valid⟩,
    c1_astar_optimal wGrid2 (0, 0) (1, 1) false (by decide) (by decide) (by decide)
      (by decide) ⟨[(0, 0), (0, 1), (1, 1)], wGrid2_path_valid⟩⟩

/-- Claim C8: with in-bounds non-Wall endpoints, `astar` returns the
structured not-found marker exactly when start and goal are disconnected,
and it always returns normally (never an exception or divergence). -/
theorem c8_not_found_iff_disconnected (grid : Grid) (start goal : Cell)
    (rec : Bool) (hstart : cellFree grid start) (hgoal : cellFree grid goal) :
    (astar grid start goal rec (astarFuel grid) = some none ↔
      ¬ ∃ q, ValidPath grid start goal q) ∧
      astar grid start goal rec (astarFuel grid) ≠ none := by
  have hterm := astar_returns grid start goal rec
  obtain ⟨r, hr⟩ := Option.ne_none_iff_exists'.mp hterm
  have hopt := astarLoop_opt grid start goal rec hstart (astarFuel grid) _ r
    (astarInit_BInv grid start goal) (astarInit_OInv grid start goal hstart) hr
  refine ⟨⟨?_, ?_⟩, hterm⟩
  · intro heq
    rw [hr] at heq
    simp only [Option.some.injEq] at heq
    subst heq
    rintro ⟨q, hq⟩
    exact hopt.1 rfl q hq
  · intro hnp
    cases r with
    | none => exact hr
    | some res =>
      obtain ⟨hvp, _⟩ := hopt.2 res rfl
      exact absurd ⟨res.path, hvp⟩ hnp

/-- Witness for C8 on a concrete disconnected instance. -/
theorem c8_not_found_iff_disconnected_witness :
    cellFree wGridSep (0, 0) ∧ cellFree wGridSep (0, 2) ∧
      ((astar wGridSep (0, 0) (0, 2) false (astarFuel wGridSep) = some none ↔
        ¬ ∃ q, ValidPath wGridSep (0, 0) (0, 2) q) ∧
        astar wGridSep (0, 0) (0, 2) false (astarFuel wGridSep) ≠ none) :=
  ⟨by decide, by decide,
    c8_not_found_iff_disconnected wGridSep (0, 0) (0, 2) false (by decide)
      (by decide)⟩
